import Mathlib

/-!
The resize-and-cache pipeline of caaas (`handler.go`, `config.go`).

A shallow embedding of `ImgHandler.getUUID`, `ImgHandler.getSizes`,
`ImgHandler.processImage`, `ImgHandler.get` and `ImgHandler.post`
(`handler.go`) and of the `ImageChannel` semaphore (`config.go`).

Go strings are modelled as lists of characters.  Both regular expressions of
the source only mention ASCII classes and `strings.Split` is used with the
ASCII separator `"__"`, so the byte view and the character view agree on
valid UTF-8 input.
-/

namespace Caaas

/-! ## Regular expressions of the shape used in `handler.go`

Both patterns are plain sequences of items `class{n}`, `class+` or a single
class.  `Atom` is one such item, and `matchSeq` is the leftmost-first
(greedy, backtracking) matching discipline of Go's `regexp` package on such
sequences: every item first takes as many characters as it may and gives
characters back one at a time when the rest of the pattern fails. -/

/-- One item of a pattern: a character class repeated between `lo` and `hi`
times (`hi = none`: no upper bound), greedy. -/
structure Atom where
  cls : Char → Bool
  lo : Nat
  hi : Option Nat

/-- The greatest number of characters the item `a` may take at the start of
`s`: the run of characters of its class there, cut at `hi`. -/
def Atom.most (a : Atom) (s : List Char) : Nat :=
  match a.hi with
  | none => (s.takeWhile a.cls).length
  | some h => min h (s.takeWhile a.cls).length

/-- Greedy choice of the repetition count of one item: try `lo + e`
characters first, then one fewer, down to `lo`; `rest` matches the remaining
items of the pattern on what is left of the input. -/
def tryCounts (rest : List Char → Option (List (List Char))) (s : List Char) (lo : Nat) :
    Nat → Option (List (List Char))
  | 0 =>
    match rest (s.drop lo) with
    | some ps => some (s.take lo :: ps)
    | none => none
  | e + 1 =>
    match rest (s.drop (lo + e + 1)) with
    | some ps => some (s.take (lo + e + 1) :: ps)
    | none => tryCounts rest s lo e

/-- Anchored match of a sequence of items at the start of `s`: the pieces of
input consumed by each item, or `none` when the pattern does not match here. -/
def matchSeq : List Atom → List Char → Option (List (List Char))
  | [], _ => some []
  | a :: as, s =>
    if a.most s < a.lo then none else tryCounts (matchSeq as) s a.lo (a.most s - a.lo)

/-- Unanchored search: the match at the leftmost position of `s` at which
the pattern matches (`Regexp.FindStringSubmatch`; `none` is Go's `nil`). -/
def findSeq (re : List Atom) : List Char → Option (List (List Char))
  | [] => matchSeq re []
  | c :: cs =>
    match matchSeq re (c :: cs) with
    | some ps => some ps
    | none => findSeq re cs

/-- What one piece of a match looks like for its item. -/
def Atom.fits (a : Atom) (p : List Char) : Prop :=
  a.lo ≤ p.length ∧ (∀ h, a.hi = some h → p.length ≤ h) ∧ ∀ c ∈ p, a.cls c = true

/-- The class `[a-z0-9]`. -/
def lowerAlnum (c : Char) : Bool :=
  ('a' ≤ c && c ≤ 'z') || ('0' ≤ c && c ≤ '9')

/-- The class `[1-5]`. -/
def oneToFive (c : Char) : Bool := '1' ≤ c && c ≤ '5'

/-- The class `[0-9]`. -/
def digit (c : Char) : Bool := '0' ≤ c && c ≤ '9'

/-- The class `[z|x]`: inside brackets `|` is a literal character, so the
class has the three members `z`, `|` and `x`. -/
def modeClass (c : Char) : Bool := c == 'z' || c == '|' || c == 'x'

/-- The class of the literal `-`. -/
def dash (c : Char) : Bool := c == '-'

/-- Item `class{n}`. -/
def exactly (cls : Char → Bool) (n : Nat) : Atom := ⟨cls, n, some n⟩

/-- Item `class+`. -/
def oneOrMore (cls : Char → Bool) : Atom := ⟨cls, 1, none⟩

/-- The pattern of `getUUID`:
`[a-z0-9]{8}-[a-z0-9]{4}-[1-5][a-z0-9]{3}-[a-z0-9]{4}-[a-z0-9]{12}`. -/
def uuidRe : List Atom :=
  [exactly lowerAlnum 8, exactly dash 1, exactly lowerAlnum 4, exactly dash 1,
   exactly oneToFive 1, exactly lowerAlnum 3, exactly dash 1, exactly lowerAlnum 4,
   exactly dash 1, exactly lowerAlnum 12]

/-- The pattern of `getSizes`: `([0-9]+)([z|x])([0-9]+)`; each of the three
items is one capture group. -/
def sizeRe : List Atom :=
  [oneOrMore digit, exactly modeClass 1, oneOrMore digit]

/-- Method `ImgHandler.getUUID`: the text of the leftmost match of `uuidRe`
(`FindStringSubmatch(text)[0]`), or the empty string when there is none. -/
def getUUID (text : List Char) : List Char :=
  match findSeq uuidRe text with
  | some ps => ps.flatten
  | none => []


/-! ## `strings.Split`, `strings.TrimPrefix`, `strconv.Atoi` -/

/-- The loop of `strings.Split(s, sep)` for a non-empty `sep`: at the first
position where `sep` begins, close the current piece and continue after the
separator.  Every round consumes a character, so `fuel = len(s) + 1` rounds
are always enough. -/
def Split.go (sep : List Char) : Nat → List Char → List Char → List (List Char)
  | 0, cur, _ => [cur]
  | _ + 1, cur, [] => [cur]
  | fuel + 1, cur, c :: cs =>
    if sep.isPrefixOf (c :: cs) then cur :: Split.go sep fuel [] ((c :: cs).drop sep.length)
    else Split.go sep fuel (cur ++ [c]) cs

/-- Library `strings.Split(s, sep)` for a non-empty separator. -/
def Split (s sep : List Char) : List (List Char) :=
  Split.go sep (s.length + 1) [] s

/-- Library `strings.TrimPrefix(s, prefix)`. -/
def TrimPrefix (s pre : List Char) : List Char :=
  if pre.isPrefixOf s then s.drop pre.length else s

/-- Value of a string of decimal digits. -/
def decVal (ds : List Char) : Nat :=
  ds.foldl (fun n c => 10 * n + (c.toNat - '0'.toNat)) 0

/-- Largest value of Go's `int` (64-bit platforms). -/
def maxInt : Int := 2 ^ 63 - 1

/-- Smallest value of Go's `int` (64-bit platforms). -/
def minInt : Int := -(2 ^ 63)

/-- Library `strconv.Atoi` with its error result dropped, as `getSizes` drops it
(`widthInt, _ := strconv.Atoi(...)`): the value of an optionally signed
string of decimal digits, clamped to the range of `int` when it is out of
range, and `0` for anything that is not a number. -/
def Atoi (s : List Char) : Int :=
  let neg := s.head? == some '-'
  let ds := if s.head? == some '-' || s.head? == some '+' then s.drop 1 else s
  if ds.isEmpty || !ds.all digit then 0
  else if neg then max (-(decVal ds : Int)) minInt
  else min (decVal ds : Int) maxInt

/-! ## Configuration (`config.go`) -/

/-- Record `ImageConfig` of `config.go`. -/
structure ImageConfig where
  StoreWidth : Int
  StoreHeight : Int
  DefaultWidth : Int
  DefaultHeight : Int
  StoreQuality : Int
  ReadQuality : Int
  CacheDir : List Char
  CacheDirLength : Int
  UseGoRoutine : Bool
  ProcessPar : Int

/-- Capacity of `ImageChannel = make(chan int, Config.Image.ProcessPar)`. -/
def capacity (cfg : ImageConfig) : Nat := cfg.ProcessPar.toNat

/-! ## `getSizes` -/

/-- Library `Regexp.FindStringSubmatch`: the whole match followed by the text of the
groups, or the empty (nil) slice when the pattern matches nowhere.  In
`sizeRe` every item is one group. -/
def FindStringSubmatch (re : List Atom) (s : List Char) : List (List Char) :=
  match findSeq re s with
  | some ps => ps.flatten :: ps
  | none => []

/-- Method `ImgHandler.getSizes`: width, crop mode and height of a request path.
`none` is the run-time panic (index out of range) of `parts[1]` on the nil
slice that `FindStringSubmatch` returns when the second segment has no match. -/
def getSizes (cfg : ImageConfig) (path : List Char) : Option (Int × List Char × Int) :=
  let segments := Split path ['_', '_']
  match segments with
  | _ :: seg1 :: _ =>
    let parts := FindStringSubmatch sizeRe seg1
    match parts[1]?, parts[2]?, parts[3]? with
    | some p1, some p2, some p3 =>
      let widthInt := Atoi p1
      let mode := p2
      let heightInt := Atoi p3
      if widthInt ≠ 0 ∨ heightInt ≠ 0 then
        let width := widthInt
        let height := heightInt
        let (width, height) := if widthInt = 0 then (heightInt, heightInt) else (width, height)
        let (width, height) := if heightInt = 0 then (widthInt, widthInt) else (width, height)
        some (width, mode, height)
      else some (cfg.DefaultWidth, mode, cfg.DefaultHeight)
    | _, _, _ => none
  | _ => some (cfg.DefaultWidth, ['z'], cfg.DefaultHeight)


/-! ## The request pipeline

The collaborators of the handler that live outside `handler.go` are
parameters of the model: the image codec (`image.Decode`, `imaging.Fit`,
`imaging.Fill`, `jpeg.Encode`), the asset store behind `Asset.Find`,
`Asset.FindByPath` and `Asset.Save`, `json.Marshal`, and the file system.
Every call the handler makes to one of them is recorded as an `Event`. -/

/-- Raw bytes. -/
abbrev Bytes := List Nat

/-- The image library: `image.Decode` over the three registered formats,
`imaging.Fit`, `imaging.Fill` (centre anchor) and `jpeg.Encode` into a fresh
buffer (its error result is ignored by `processImage`). -/
structure Codec where
  Img : Type
  decode : Bytes → Except Bytes Img
  fit : Img → Int → Int → Img
  fill : Img → Int → Int → Img
  encode : Img → Int → Bytes

/-- Modelled from the spec: the `Asset` record (its declaration is not in
`handler.go` or `config.go`), with the identifier of the spec and the fields
that `ImgHandler.post` fills in. -/
structure Asset where
  Id : List Char
  Name : List Char
  Path : List (List Char)
  ContentType : List Char
  CreatedAt : Nat
  Binary : Bytes

/-- What the handler is configured with and talks to.  Errors carry the bytes
of their text (`err.Error()`). -/
structure Env where
  cfg : ImageConfig
  codec : Codec
  Find : List Char → Except Bytes Asset
  FindByPath : List Char → Except Bytes (List Asset)
  Save : Asset → Except Bytes Asset
  MarshalList : List Asset → Bytes
  Marshal : Asset → Bytes
  absClean : List Char → List Char
  QueryUnescape : List Char → List Char

/-- The file system as the handler sees it: `files p` is what
`ioutil.ReadFile(p)` returns (`none`: any read error), `creatable p` tells
whether `os.Create(p)` succeeds, `writable p` whether a write to the created
file succeeds. -/
structure FS where
  files : List Char → Option Bytes
  creatable : List Char → Bool
  writable : List Char → Bool

/-- Effect of `os.Create(p)` when it succeeds: the file exists and is empty. -/
def FS.create (fs : FS) (p : List Char) : FS :=
  { fs with files := fun q => if q = p then some [] else fs.files q }

/-- A successful write of `b` to the freshly created file `p`. -/
def FS.put (fs : FS) (p : List Char) (b : Bytes) : FS :=
  { fs with files := fun q => if q = p then some b else fs.files q }

/-- State shared by requests: the cache directory and the number of values
sitting in `ImageChannel`. -/
structure World where
  fs : FS
  inUse : Nat

/-- One HTTP request: `req.URL.Path`, whether a write to the
`http.ResponseWriter` succeeds (it fails when the client has gone), the result
of `req.FormFile("file")` (file name and content) and the clock. -/
structure Request where
  Path : List Char
  clientOk : Bool
  file : Except Bytes (List Char × Bytes)
  now : Nat

/-- Calls made by the handler, in order. -/
inductive Event
  | write (b : Bytes)
  | writeHeader (code : Nat)
  | setContentType (v : List Char)
  | find (id : List Char)
  | findByPath (path : List Char)
  | save (name : List Char)
  | processImage (mode : List Char) (width height : Int)
  | send
  | recv
  | decode (data : Bytes)
  | fit (width height : Int)
  | fill (width height : Int)
  | encode (quality : Int)
  | create (path : List Char)
  | fileWrite (path : List Char) (b : Bytes)
  | logPanic (msg : Bytes)
  deriving DecidableEq

/-- How a call ends: it returns, it panics, or it waits forever on a full
`ImageChannel`. -/
inductive Outcome
  | returned
  | panicked
  | blocked
  deriving DecidableEq

/-- Result of `processImage`: the buffer, the error return, a panic, or a
send that never completes. -/
inductive Processed
  | ok (buf : Bytes)
  | err (e : Bytes)
  | panic
  | blocked
  deriving DecidableEq

/-- Method `ImgHandler.processImage`.  The send on `ImageChannel` needs room in the
channel; the deferred receive runs on every way out, the panic of
`log.Panic(err)` included, which makes the `return nil, err` after it
unreachable.  A mode other than `"z"` and `"x"` leaves `m` nil, and
`jpeg.Encode` panics on it. -/
def processImage (env : Env) (input : Bytes) (mode : List Char) (width height : Int)
    (w : World) : Processed × World × List Event :=
  let enter := [Event.processImage mode width height]
  if w.inUse < capacity env.cfg then
    let w1 : World := { w with inUse := w.inUse + 1 }
    let done : World := { w1 with inUse := w1.inUse - 1 }
    match env.codec.decode input with
    | .error e =>
      (.panic, done, enter ++ [.send, .decode input, .logPanic e, .recv])
    | .ok img =>
      if mode = ['z'] then
        let m := env.codec.fit img width height
        let buf := env.codec.encode m env.cfg.ReadQuality
        (.ok buf, done, enter ++ [.send, .decode input, .fit width height,
          .encode env.cfg.ReadQuality, .recv])
      else if mode = ['x'] then
        let m := env.codec.fill img width height
        let buf := env.codec.encode m env.cfg.ReadQuality
        (.ok buf, done, enter ++ [.send, .decode input, .fill width height,
          .encode env.cfg.ReadQuality, .recv])
      else
        (.panic, done, enter ++ [.send, .decode input, .encode env.cfg.ReadQuality, .recv])
  else (.blocked, w, enter)

/-- Result of a handler call. -/
structure Res where
  out : Outcome
  world : World
  events : List Event

/-- Constant `http.StatusInternalServerError`. -/
def StatusInternalServerError : Nat := 500

/-- Constant `http.StatusBadRequest`. -/
def StatusBadRequest : Nat := 400

/-- Name of the cache file of a request:
`filepath.Abs(filepath.Clean(Config.Image.CacheDir + req.URL.Path))`. -/
def cachedFile (env : Env) (req : Request) : List Char :=
  env.absClean (env.cfg.CacheDir ++ req.Path)

/-- Method `ImgHandler.get`.  `io.MultiWriter(w, cacheFile).Write(b)` writes to the
response first and goes on to the file only when that write succeeded; when
`os.Create` failed the file is nil and the write to it fails without effect.
An event records the call, the world records what the call achieved. -/
def get (env : Env) (req : Request) (w : World) : Res :=
  let path := TrimPrefix req.Path ['/']
  let id := getUUID path
  if id ≠ [] then
    match w.fs.files (cachedFile env req) with
    | some cachedData => ⟨.returned, w, [.write cachedData]⟩
    | none =>
      match getSizes env.cfg path with
      | none => ⟨.panicked, w, []⟩
      | some (width, mode, height) =>
        match env.Find id with
        | .error e => ⟨.panicked, w, [.find id, .logPanic e]⟩
        | .ok asset =>
          match processImage env asset.Binary mode width height w with
          | (.blocked, w2, ev) => ⟨.blocked, w2, .find id :: ev⟩
          | (.panic, w2, ev) => ⟨.panicked, w2, .find id :: ev⟩
          | (.err e, w2, ev) =>
            ⟨.returned, w2, .find id :: ev ++ [.writeHeader StatusInternalServerError, .write e]⟩
          | (.ok buf, w2, ev) =>
            let created := w2.fs.creatable (cachedFile env req)
            let w3 : World :=
              if created then { w2 with fs := w2.fs.create (cachedFile env req) } else w2
            if req.clientOk then
              let w4 : World :=
                if created && w3.fs.writable (cachedFile env req) then
                  { w3 with fs := w3.fs.put (cachedFile env req) buf }
                else w3
              ⟨.returned, w4, .find id :: ev ++ [.create (cachedFile env req), .write buf,
                .fileWrite (cachedFile env req) buf]⟩
            else
              ⟨.returned, w3, .find id :: ev ++ [.create (cachedFile env req), .write buf]⟩
  else
    match env.FindByPath path with
    | .error e => ⟨.panicked, w, [.findByPath path, .logPanic e]⟩
    | .ok assets =>
      ⟨.returned, w, [.findByPath path, .setContentType "application/json".toList,
        .write (env.MarshalList assets)]⟩

/-- Method `ImgHandler.post`. -/
def post (env : Env) (req : Request) (w : World) : Res :=
  let path := req.Path
  if path = [] ∨ path = ['/'] then
    ⟨.returned, w, [.writeHeader StatusBadRequest,
      .write ("please specify the path".toList.map Char.toNat)]⟩
  else
    match req.file with
    | .error e => ⟨.returned, w, [.writeHeader StatusBadRequest, .write e]⟩
    | .ok (filename, content) =>
      match processImage env content ['z'] env.cfg.StoreWidth env.cfg.StoreHeight w with
      | (.blocked, w2, ev) => ⟨.blocked, w2, ev⟩
      | (.panic, w2, ev) => ⟨.panicked, w2, ev⟩
      | (.err e, w2, ev) => ⟨.panicked, w2, ev ++ [.logPanic e]⟩
      | (.ok buf, w2, ev) =>
        let fileName := env.QueryUnescape filename
        let asset : Asset :=
          { Id := [],
            Name := fileName,
            Path := Split (TrimPrefix req.Path ['/']) ['/'],
            ContentType := "image/jpeg".toList,
            CreatedAt := req.now,
            Binary := buf }
        match env.Save asset with
        | .error e => ⟨.panicked, w2, ev ++ [.save fileName, .logPanic e]⟩
        | .ok saved =>
          ⟨.returned, w2, ev ++ [.save fileName, .setContentType "application/json".toList,
            .write (env.Marshal saved)]⟩

/-- The response writes of a call, concatenated: the body it sends. -/
def responseBody : List Event → Bytes
  | [] => []
  | .write b :: es => b ++ responseBody es
  | _ :: es => responseBody es

/-- Whether a call entered `processImage`. -/
def invokesProcessImage (es : List Event) : Bool :=
  es.any fun e => match e with
    | .processImage _ _ _ => true
    | _ => false

/-- Whether a call asked the asset store for an asset. -/
def invokesFind (es : List Event) : Bool :=
  es.any fun e => match e with
    | .find _ => true
    | _ => false

/-- Whether a call created or wrote a cache file. -/
def writesCache (es : List Event) : Bool :=
  es.any fun e => match e with
    | .create _ => true
    | .fileWrite _ _ => true
    | _ => false

/-- The qualities handed to `jpeg.Encode` during a call. -/
def encodeQualities : List Event → List Int
  | [] => []
  | .encode q :: es => q :: encodeQualities es
  | _ :: es => encodeQualities es

/-- The status codes written by a call. -/
def statusCodes : List Event → List Nat
  | [] => []
  | .writeHeader c :: es => c :: statusCodes es
  | _ :: es => statusCodes es


/-! ## Interleaved calls of `processImage` on the shared `ImageChannel`

One call of `processImage` is cut into its atomic moves: the send
`ImageChannel <- 1`, `image.Decode`, and the way out (return after resize and
encode, or panic), on which the deferred receive `<-ImageChannel` runs. -/

/-- Where one call of `processImage` stands: not yet past the send
(`idle`), past the send and about to decode (`entered`), decoded and about to
resize and encode (`decoded`), decode failed and about to `log.Panic`
(`failed`), and the two ways a call ends, after its deferred receive ran. -/
inductive Pc
  | idle
  | entered
  | decoded
  | failed
  | returned
  | panicked
  deriving DecidableEq

/-- What a call has done so far on the channel and with the decoder. -/
inductive Act
  | send
  | decode (ok : Bool)
  | recv
  deriving DecidableEq

/-- One call: its position, its `mode` argument, and its moves so far, oldest
first. -/
structure Call where
  pc : Pc
  mode : List Char
  acts : List Act
  deriving DecidableEq

/-- All calls in flight and the number of values in `ImageChannel`. -/
structure Sys where
  inUse : Nat
  calls : List Call
  deriving DecidableEq

/-- One atomic move of a call, when it has one.  The send needs room in the
channel.  `decodes` is the result of `image.Decode` for this call.  After a
successful decode the call returns its buffer when the mode is `"z"` or
`"x"` and panics in `jpeg.Encode` on the nil image otherwise; after a failed
decode it panics in `log.Panic`.  On each of these ways out the deferred
receive takes one value from the channel. -/
def stepCall (cap inUse : Nat) (decodes : Bool) (c : Call) : Option (Nat × Call) :=
  match c.pc with
  | .idle =>
    if inUse < cap then some (inUse + 1, { c with pc := .entered, acts := c.acts ++ [.send] })
    else none
  | .entered =>
    some (inUse, { c with pc := if decodes then .decoded else .failed,
                          acts := c.acts ++ [.decode decodes] })
  | .decoded =>
    if 0 < inUse then
      some (inUse - 1,
        { c with pc := if c.mode = ['z'] ∨ c.mode = ['x'] then .returned else .panicked,
                 acts := c.acts ++ [.recv] })
    else none
  | .failed =>
    if 0 < inUse then some (inUse - 1, { c with pc := .panicked, acts := c.acts ++ [.recv] })
    else none
  | .returned => none
  | .panicked => none

/-- The scheduler lets call `i` move; a call that cannot move (blocked on the
channel, ended, or absent) leaves the system as it is. -/
def step (cap : Nat) (s : Sys) (i : Nat) (decodes : Bool) : Sys :=
  match s.calls[i]? with
  | none => s
  | some c =>
    match stepCall cap s.inUse decodes c with
    | none => s
    | some (u, c') => ⟨u, s.calls.set i c'⟩

/-- Run a schedule: a list of (call, decode result) choices. -/
def run (cap : Nat) : Sys → List (Nat × Bool) → Sys
  | s, [] => s
  | s, (i, b) :: rest => run cap (step cap s i b) rest

/-- Initial state: one call about to start for each given mode, empty
channel. -/
def start (modes : List (List Char)) : Sys :=
  ⟨0, modes.map fun m => ⟨.idle, m, []⟩⟩

/-- A call holds a slot from its send to its deferred receive. -/
def Call.holding (c : Call) : Bool :=
  c.pc = .entered || c.pc = .decoded || c.pc = .failed

/-- A call has ended. -/
def Call.ended (c : Call) : Bool :=
  c.pc = .returned || c.pc = .panicked

/-- Number of calls that hold a slot. -/
def held (s : Sys) : Nat := s.calls.countP Call.holding

/-- The moves a call at a given position has made: the send comes first and
once, the decode after it, the receive last and once; a call that returned
had a mode `"z"` or `"x"`, a call that panicked after a good decode had
another mode. -/
def Call.logged (c : Call) : Prop :=
  match c.pc with
  | .idle => c.acts = []
  | .entered => c.acts = [.send]
  | .decoded => c.acts = [.send, .decode true]
  | .failed => c.acts = [.send, .decode false]
  | .returned => c.acts = [.send, .decode true, .recv] ∧ (c.mode = ['z'] ∨ c.mode = ['x'])
  | .panicked =>
    c.acts = [.send, .decode false, .recv] ∨
      (c.acts = [.send, .decode true, .recv] ∧ ¬ (c.mode = ['z'] ∨ c.mode = ['x']))

/-- Invariant of the interleaved system: the values in the channel are the
calls that hold a slot, they fit the capacity, and every call has made the
moves of its position. -/
def Inv (cap : Nat) (s : Sys) : Prop :=
  s.inUse = held s ∧ s.inUse ≤ cap ∧ ∀ c ∈ s.calls, c.logged

/-- Whether `image.Decode` accepts the input. -/
def decodes (env : Env) (input : Bytes) : Bool :=
  match env.codec.decode input with
  | .ok _ => true
  | .error _ => false

/-! ## The shape of identifiers -/

/-- Hexadecimal digits, either case. -/
def hexDigit (c : Char) : Bool :=
  ('0' ≤ c && c ≤ '9') || ('a' ≤ c && c ≤ 'f') || ('A' ≤ c && c ≤ 'F')

/-- Lowercase hexadecimal digits. -/
def lowerHex (c : Char) : Bool :=
  ('0' ≤ c && c ≤ '9') || ('a' ≤ c && c ≤ 'f')

/-- Five groups of characters of `cls`, of lengths 8-4-4-4-12, joined by `-`,
the third group starting with one of `1`..`5`. -/
def UUIDShape (cls : Char → Bool) (u : List Char) : Prop :=
  ∃ g1 g2 v g3 g4 g5,
    u = g1 ++ '-' :: g2 ++ '-' :: v :: g3 ++ '-' :: g4 ++ '-' :: g5 ∧
    g1.length = 8 ∧ g2.length = 4 ∧ g3.length = 3 ∧ g4.length = 4 ∧ g5.length = 12 ∧
    oneToFive v = true ∧ cls v = true ∧
    (∀ c ∈ g1, cls c = true) ∧ (∀ c ∈ g2, cls c = true) ∧ (∀ c ∈ g3, cls c = true) ∧
    (∀ c ∈ g4, cls c = true) ∧ (∀ c ∈ g5, cls c = true)

/-- The size rule of the specification on the two parsed numbers: both
non-zero, the pair itself; exactly one zero, the other one twice; both zero,
the configured default. -/
def specSizes (cfg : ImageConfig) (w h : Int) : Int × Int :=
  if w ≠ 0 ∧ h ≠ 0 then (w, h)
  else if w = 0 ∧ h = 0 then (cfg.DefaultWidth, cfg.DefaultHeight)
  else if w = 0 then (h, h)
  else (w, w)

/-- A string is a non-empty run of decimal digits. -/
def isDigits (s : List Char) : Prop := s ≠ [] ∧ ∀ c ∈ s, digit c = true

/-! ## A concrete installation, to run the handlers on -/

/-- A toy codec: empty input does not decode; resizing tags the image,
encoding puts the quality in front. -/
def sampleCodec : Codec where
  Img := Bytes
  decode := fun b => if b = [] then .error [110, 111] else .ok b
  fit := fun img _ _ => 0 :: img
  fill := fun img _ _ => 1 :: img
  encode := fun img q => q.toNat :: img

/-- Sample configuration: store quality 90, read quality 75, two slots. -/
def sampleCfg : ImageConfig :=
  { StoreWidth := 1024, StoreHeight := 768, DefaultWidth := 100, DefaultHeight := 80,
    StoreQuality := 90, ReadQuality := 75, CacheDir := "/cache".toList,
    CacheDirLength := 0, UseGoRoutine := false, ProcessPar := 2 }

/-- The identifier of the sample asset. -/
def sampleId : List Char := "550e8400-e29b-41d4-a716-446655440000".toList

/-- The store holds one asset; `bin` is its content. -/
def sampleEnv (bin : Bytes) : Env where
  cfg := sampleCfg
  codec := sampleCodec
  Find := fun id =>
    if id = sampleId then .ok ⟨sampleId, "cat.jpg".toList, [], "image/jpeg".toList, 0, bin⟩
    else .error [110, 102]
  FindByPath := fun _ => .ok []
  Save := fun a => .ok { a with Id := sampleId }
  MarshalList := fun as => as.map fun a => a.Binary.length
  Marshal := fun a => a.Binary
  absClean := fun p => p
  QueryUnescape := fun n => n

/-- A request for the sample asset at 300 by 200, fit. -/
def sampleReq (clientOk : Bool) : Request :=
  { Path := "/a/550e8400-e29b-41d4-a716-446655440000__300z200".toList,
    clientOk := clientOk, file := .error [], now := 0 }

/-- An upload of the bytes `1 2 3` under `/a`. -/
def sampleUpload : Request :=
  { Path := "/a".toList, clientOk := true, file := .ok ("cat.png".toList, [1, 2, 3]), now := 0 }

/-- An empty cache directory in which files can be created and written. -/
def emptyCache : World :=
  ⟨⟨fun _ => none, fun _ => true, fun _ => true⟩, 0⟩

/-- An empty cache in which no file can be created: the directory of the
request does not exist (`get` never makes one), or the cache is read-only. -/
def closedCache : World :=
  ⟨⟨fun _ => none, fun _ => false, fun _ => false⟩, 0⟩

/-! ## Predicates used in the statements -/

/-- A second segment has the shape digits, mode character, digits. -/
def SizeSegment (seg : List Char) : Prop :=
  ∃ W c H, seg = W ++ c :: H ∧ isDigits W ∧ isDigits H ∧ (c = 'z' ∨ c = 'x')

/-- A second segment has a part of the shape digits, mode character, digits. -/
def HasSizePart (seg : List Char) : Prop :=
  ∃ pre W c H post, seg = pre ++ W ++ c :: H ++ post ∧ isDigits W ∧ isDigits H ∧
    (c = 'z' ∨ c = 'x')

/-- A cache that holds `b` for the sample request. -/
def warmCache (b : Bytes) : World :=
  ⟨⟨fun p => if p = cachedFile (sampleEnv []) (sampleReq true) then some b else none,
    fun _ => true, fun _ => true⟩, 0⟩

/-! ## The matcher -/

theorem tryCounts_first (rest : List Char → Option (List (List Char))) (s : List Char)
    (lo e : Nat) (ps : List (List Char)) (h : rest (s.drop (lo + e)) = some ps) :
    tryCounts rest s lo e = some (s.take (lo + e) :: ps) := by
  cases e with
  | zero => simp only [Nat.add_zero] at h; simp [tryCounts, h]
  | succ e => rw [← Nat.add_assoc] at h ⊢; simp [tryCounts, h]

theorem tryCounts_sound (rest : List Char → Option (List (List Char))) (s : List Char)
    (lo e : Nat) (r : List (List Char)) (h : tryCounts rest s lo e = some r) :
    ∃ k ps, lo ≤ k ∧ k ≤ lo + e ∧ rest (s.drop k) = some ps ∧ r = s.take k :: ps := by
  induction e with
  | zero =>
    simp only [tryCounts] at h
    cases hr : rest (s.drop lo) with
    | none => simp [hr] at h
    | some ps =>
      simp only [hr, Option.some.injEq] at h
      exact ⟨lo, ps, le_refl _, by omega, hr, h.symm⟩
  | succ e ih =>
    simp only [tryCounts] at h
    cases hr : rest (s.drop (lo + e + 1)) with
    | none =>
      simp only [hr] at h
      obtain ⟨k, ps, h1, h2, h3, h4⟩ := ih h
      exact ⟨k, ps, h1, by omega, h3, h4⟩
    | some ps =>
      simp only [hr, Option.some.injEq] at h
      exact ⟨lo + e + 1, ps, by omega, by omega, hr, h.symm⟩

theorem tryCounts_none (rest : List Char → Option (List (List Char))) (s : List Char)
    (lo e : Nat) (h : tryCounts rest s lo e = none) :
    ∀ k, lo ≤ k → k ≤ lo + e → rest (s.drop k) = none := by
  induction e with
  | zero =>
    intro k h1 h2
    have hk : k = lo := by omega
    subst hk
    simp only [tryCounts] at h
    cases hr : rest (s.drop k) with
    | none => rfl
    | some ps => simp [hr] at h
  | succ e ih =>
    intro k h1 h2
    simp only [tryCounts] at h
    cases hr : rest (s.drop (lo + e + 1)) with
    | none =>
      simp only [hr] at h
      by_cases hk : k = lo + e + 1
      · rw [hk]; exact hr
      · exact ih h k h1 (by omega)
    | some ps => simp [hr] at h

theorem matchSeq_cons (a : Atom) (as : List Atom) (s : List Char) :
    matchSeq (a :: as) s =
      if a.most s < a.lo then none else tryCounts (matchSeq as) s a.lo (a.most s - a.lo) := by
  simp only [matchSeq, Atom.most]

theorem most_le_takeWhile (a : Atom) (s : List Char) :
    a.most s ≤ (s.takeWhile a.cls).length := by
  unfold Atom.most
  split
  · exact le_refl _
  · exact Nat.min_le_right _ _

theorem most_le_hi (a : Atom) (s : List Char) (h : Nat) (hh : a.hi = some h) :
    a.most s ≤ h := by
  unfold Atom.most
  rw [hh]
  exact Nat.min_le_left _ _

theorem take_all_of_le_takeWhile (cls : Char → Bool) (s : List Char) (k : Nat)
    (hk : k ≤ (s.takeWhile cls).length) : ∀ c ∈ s.take k, cls c = true := by
  induction s generalizing k with
  | nil => intro c hc; simp at hc
  | cons x xs ih =>
    intro c hc
    cases k with
    | zero => simp at hc
    | succ k =>
      by_cases hx : cls x = true
      · simp only [List.takeWhile_cons, hx, if_true, List.length_cons] at hk
        simp only [List.take_succ_cons, List.mem_cons] at hc
        rcases hc with rfl | hc
        · exact hx
        · exact ih k (by omega) c hc
      · simp [List.takeWhile_cons, hx] at hk

theorem le_length_of_le_takeWhile (cls : Char → Bool) (s : List Char) (k : Nat)
    (hk : k ≤ (s.takeWhile cls).length) : k ≤ s.length :=
  le_trans hk (List.takeWhile_sublist cls).length_le

/-- Soundness of `matchSeq`: one piece per item, each fitting its item, and
together they are a prefix of the input. -/
theorem matchSeq_sound (re : List Atom) (s : List Char) (ps : List (List Char))
    (h : matchSeq re s = some ps) :
    List.Forall₂ Atom.fits re ps ∧ ∃ t, s = ps.flatten ++ t := by
  induction re generalizing s ps with
  | nil =>
    simp only [matchSeq, Option.some.injEq] at h
    subst h
    exact ⟨List.Forall₂.nil, s, by simp⟩
  | cons a as ih =>
    rw [matchSeq_cons] at h
    split at h
    · exact absurd h (by simp)
    · rename_i hlo
      obtain ⟨k, qs, h1, h2, h3, h4⟩ := tryCounts_sound _ _ _ _ _ h
      obtain ⟨hall, t, ht⟩ := ih _ _ h3
      have hk : k ≤ a.most s := by omega
      have hkw : k ≤ (s.takeWhile a.cls).length := le_trans hk (most_le_takeWhile a s)
      have hlen : (s.take k).length = k := by
        rw [List.length_take]
        exact Nat.min_eq_left (le_length_of_le_takeWhile _ _ _ hkw)
      subst h4
      refine ⟨List.Forall₂.cons ⟨?_, ?_, ?_⟩ hall, t, ?_⟩
      · omega
      · intro hh hhi
        have := most_le_hi a s hh hhi
        omega
      · exact take_all_of_le_takeWhile _ _ _ hkw
      · rw [List.flatten_cons, List.append_assoc, ← ht, List.take_append_drop]

theorem takeWhile_append_all (cls : Char → Bool) (g t : List Char)
    (hg : ∀ c ∈ g, cls c = true) :
    g.length ≤ ((g ++ t).takeWhile cls).length := by
  induction g with
  | nil => simp
  | cons x xs ih =>
    have hx : cls x = true := hg x (by simp)
    simp only [List.cons_append, List.takeWhile_cons, hx, if_true, List.length_cons]
    have := ih (fun c hc => hg c (by simp [hc]))
    omega

theorem takeWhile_append_stop (cls : Char → Bool) (g t : List Char)
    (hg : ∀ c ∈ g, cls c = true) (ht : ∀ c, t.head? = some c → cls c = false) :
    (g ++ t).takeWhile cls = g := by
  induction g with
  | nil =>
    cases t with
    | nil => rfl
    | cons y ys =>
      have := ht y rfl
      simp [List.takeWhile_cons, this]
  | cons x xs ih =>
    have hx : cls x = true := hg x (by simp)
    simp only [List.cons_append, List.takeWhile_cons, hx, if_true]
    rw [ih (fun c hc => hg c (by simp [hc]))]

/-- An item `class{n}` takes exactly the next `n` characters. -/
theorem matchSeq_exactly (cls : Char → Bool) (n : Nat) (as : List Atom) (g t : List Char)
    (ps : List (List Char)) (hlen : g.length = n) (hg : ∀ c ∈ g, cls c = true)
    (hrest : matchSeq as t = some ps) :
    matchSeq (exactly cls n :: as) (g ++ t) = some (g :: ps) := by
  rw [matchSeq_cons]
  have hw := takeWhile_append_all cls g t hg
  have hmost : (exactly cls n).most (g ++ t) = n := by
    simp only [Atom.most, exactly]
    exact Nat.min_eq_left (by omega)
  have hlo : (exactly cls n).lo = n := rfl
  rw [hmost, hlo, if_neg (by omega), Nat.sub_self]
  have := tryCounts_first (matchSeq as) (g ++ t) n 0 ps
    (by rw [Nat.add_zero, ← hlen, List.drop_left]; exact hrest)
  rw [this, Nat.add_zero, ← hlen, List.take_left]

/-- An item `class+` takes a whole run of its class when the rest of the
pattern matches after the run. -/
theorem matchSeq_oneOrMore (cls : Char → Bool) (as : List Atom) (g t : List Char)
    (ps : List (List Char)) (hne : g ≠ []) (hg : ∀ c ∈ g, cls c = true)
    (ht : ∀ c, t.head? = some c → cls c = false) (hrest : matchSeq as t = some ps) :
    matchSeq (oneOrMore cls :: as) (g ++ t) = some (g :: ps) := by
  rw [matchSeq_cons]
  have hmost : (oneOrMore cls).most (g ++ t) = g.length := by
    simp only [Atom.most, oneOrMore]
    rw [takeWhile_append_stop cls g t hg ht]
  have hlo : (oneOrMore cls).lo = 1 := rfl
  have hpos : 0 < g.length := List.length_pos.mpr hne
  rw [hmost, hlo, if_neg (by omega)]
  have := tryCounts_first (matchSeq as) (g ++ t) 1 (g.length - 1) ps
    (by rw [show 1 + (g.length - 1) = g.length by omega, List.drop_left]; exact hrest)
  rw [this, show 1 + (g.length - 1) = g.length by omega, List.take_left]

theorem findSeq_of_matchSeq (re : List Atom) (t : List Char) (ps : List (List Char))
    (h : matchSeq re t = some ps) : findSeq re t = some ps := by
  cases t with
  | nil => simpa [findSeq] using h
  | cons c cs => simp [findSeq, h]

theorem findSeq_skip (re : List Atom) (p r : List Char)
    (h : ∀ i, i < p.length → matchSeq re ((p ++ r).drop i) = none) :
    findSeq re (p ++ r) = findSeq re r := by
  induction p with
  | nil => rfl
  | cons c cs ih =>
    have h0 := h 0 (by simp)
    simp only [List.drop_zero] at h0
    simp only [List.cons_append] at h0 ⊢
    simp only [findSeq, h0]
    apply ih
    intro i hi
    have := h (i + 1) (by simp; omega)
    simpa using this

theorem findSeq_sound (re : List Atom) (t : List Char) (ps : List (List Char))
    (h : findSeq re t = some ps) :
    ∃ pre post, t = pre ++ post ∧ matchSeq re post = some ps := by
  induction t with
  | nil => exact ⟨[], [], rfl, by simpa [findSeq] using h⟩
  | cons c cs ih =>
    simp only [findSeq] at h
    cases hm : matchSeq re (c :: cs) with
    | some qs =>
      simp only [hm, Option.some.injEq] at h
      subst h
      exact ⟨[], c :: cs, rfl, hm⟩
    | none =>
      simp only [hm] at h
      obtain ⟨pre, post, h1, h2⟩ := ih h
      exact ⟨c :: pre, post, by simp [h1], h2⟩

theorem findSeq_isSome (re : List Atom) (pre post : List Char) (ps : List (List Char))
    (h : matchSeq re post = some ps) : ∃ qs, findSeq re (pre ++ post) = some qs := by
  induction pre with
  | nil => exact ⟨ps, findSeq_of_matchSeq re post ps h⟩
  | cons c cs ih =>
    simp only [List.cons_append, findSeq]
    cases hm : matchSeq re (c :: (cs ++ post)) with
    | some qs => exact ⟨qs, rfl⟩
    | none => exact ih


/-! ## `getUUID` -/

theorem fits_exactly (cls : Char → Bool) (n : Nat) (p : List Char)
    (h : (exactly cls n).fits p) : p.length = n ∧ ∀ c ∈ p, cls c = true := by
  obtain ⟨h1, h2, h3⟩ := h
  have := h2 n rfl
  simp only [exactly] at h1 h3
  exact ⟨by omega, h3⟩

theorem fits_single (cls : Char → Bool) (p : List Char) (h : (exactly cls 1).fits p) :
    ∃ v, p = [v] ∧ cls v = true := by
  obtain ⟨h1, h2⟩ := fits_exactly cls 1 p h
  match p, h1, h2 with
  | [v], _, h2 => exact ⟨v, rfl, h2 v (by simp)⟩

theorem fits_dash (p : List Char) (h : (exactly dash 1).fits p) : p = ['-'] := by
  obtain ⟨v, rfl, hv⟩ := fits_single dash p h
  simp only [dash, beq_iff_eq] at hv
  rw [hv]

theorem lowerAlnum_of_oneToFive (c : Char) (h : oneToFive c = true) : lowerAlnum c = true := by
  simp only [oneToFive, Bool.and_eq_true, decide_eq_true_eq] at h
  simp only [lowerAlnum, Bool.or_eq_true, Bool.and_eq_true, decide_eq_true_eq]
  exact Or.inr ⟨le_trans (by decide) h.1, le_trans h.2 (by decide)⟩

theorem lowerAlnum_of_lowerHex (c : Char) (h : lowerHex c = true) : lowerAlnum c = true := by
  simp only [lowerHex, Bool.or_eq_true, Bool.and_eq_true, decide_eq_true_eq] at h
  simp only [lowerAlnum, Bool.or_eq_true, Bool.and_eq_true, decide_eq_true_eq]
  rcases h with h | h
  · exact Or.inr h
  · exact Or.inl ⟨h.1, le_trans h.2 (by decide)⟩

theorem UUIDShape.mono (cls cls' : Char → Bool) (hc : ∀ c, cls c = true → cls' c = true)
    (u : List Char) (h : UUIDShape cls u) : UUIDShape cls' u := by
  obtain ⟨g1, g2, v, g3, g4, g5, hu, l1, l2, l3, l4, l5, hv, hcv, a1, a2, a3, a4, a5⟩ := h
  exact ⟨g1, g2, v, g3, g4, g5, hu, l1, l2, l3, l4, l5, hv, hc v hcv,
    fun c m => hc c (a1 c m), fun c m => hc c (a2 c m), fun c m => hc c (a3 c m),
    fun c m => hc c (a4 c m), fun c m => hc c (a5 c m)⟩

theorem UUIDShape.length (cls : Char → Bool) (u : List Char) (h : UUIDShape cls u) :
    u.length = 36 := by
  obtain ⟨g1, g2, v, g3, g4, g5, hu, l1, l2, l3, l4, l5, -⟩ := h
  subst hu
  simp only [List.length_append, List.length_cons]
  omega

/-- A text that starts with an identifier of the pattern's shape is matched
there, and the match is that identifier. -/
theorem matchSeq_uuid_of_shape (u t : List Char) (h : UUIDShape lowerAlnum u) :
    ∃ ps, matchSeq uuidRe (u ++ t) = some ps ∧ ps.flatten = u := by
  obtain ⟨g1, g2, v, g3, g4, g5, hu, l1, l2, l3, l4, l5, hv, -, a1, a2, a3, a4, a5⟩ := h
  have hd : ∀ c ∈ ['-'], dash c = true := by
    intro c hc
    simp only [List.mem_singleton] at hc
    subst hc
    rfl
  have hvv : ∀ c ∈ [v], oneToFive c = true := by
    intro c hc
    simp only [List.mem_singleton] at hc
    subst hc
    exact hv
  refine ⟨[g1, ['-'], g2, ['-'], [v], g3, ['-'], g4, ['-'], g5], ?_, ?_⟩
  · have hs : u ++ t = g1 ++ (['-'] ++ (g2 ++ (['-'] ++ ([v] ++ (g3 ++ (['-'] ++ (g4 ++
        (['-'] ++ (g5 ++ t))))))))) := by
      subst hu
      simp
    rw [hs]
    unfold uuidRe
    exact matchSeq_exactly _ _ _ _ _ _ l1 a1 <|
      matchSeq_exactly _ _ _ _ _ _ rfl hd <|
      matchSeq_exactly _ _ _ _ _ _ l2 a2 <|
      matchSeq_exactly _ _ _ _ _ _ rfl hd <|
      matchSeq_exactly _ _ _ _ _ _ rfl hvv <|
      matchSeq_exactly _ _ _ _ _ _ l3 a3 <|
      matchSeq_exactly _ _ _ _ _ _ rfl hd <|
      matchSeq_exactly _ _ _ _ _ _ l4 a4 <|
      matchSeq_exactly _ _ _ _ _ _ rfl hd <|
      matchSeq_exactly _ _ _ _ _ _ l5 a5 rfl
  · subst hu
    simp

/-- Every match of the pattern has the pattern's shape. -/
theorem shape_of_matchSeq_uuid (s : List Char) (ps : List (List Char))
    (h : matchSeq uuidRe s = some ps) :
    UUIDShape lowerAlnum ps.flatten ∧ ∃ t, s = ps.flatten ++ t := by
  obtain ⟨hall, ht⟩ := matchSeq_sound _ _ _ h
  refine ⟨?_, ht⟩
  simp only [uuidRe, List.forall₂_cons_left_iff, List.forall₂_nil_left_iff] at hall
  obtain ⟨p1, _, f1, ⟨p2, _, f2, ⟨p3, _, f3, ⟨p4, _, f4, ⟨p5, _, f5, ⟨p6, _, f6, ⟨p7, _, f7,
    ⟨p8, _, f8, ⟨p9, _, f9, ⟨p10, _, f10, rfl, rfl⟩, rfl⟩, rfl⟩, rfl⟩, rfl⟩, rfl⟩, rfl⟩, rfl⟩,
    rfl⟩, rfl⟩ := hall
  have e2 := fits_dash _ f2
  have e4 := fits_dash _ f4
  have e7 := fits_dash _ f7
  have e9 := fits_dash _ f9
  obtain ⟨v, e5, hv⟩ := fits_single _ _ f5
  obtain ⟨l1, a1⟩ := fits_exactly _ _ _ f1
  obtain ⟨l3, a3⟩ := fits_exactly _ _ _ f3
  obtain ⟨l6, a6⟩ := fits_exactly _ _ _ f6
  obtain ⟨l8, a8⟩ := fits_exactly _ _ _ f8
  obtain ⟨l10, a10⟩ := fits_exactly _ _ _ f10
  subst e2 e4 e5 e7 e9
  exact ⟨p1, p3, v, p6, p8, p10, by simp, l1, l3, l6, l8, l10, hv,
    lowerAlnum_of_oneToFive v hv, a1, a3, a6, a8, a10⟩

theorem getUUID_of_findSeq (text : List Char) (ps : List (List Char))
    (h : findSeq uuidRe text = some ps) : getUUID text = ps.flatten := by
  simp only [getUUID, h]

theorem getUUID_of_ne_nil (text : List Char) (h : getUUID text ≠ []) :
    ∃ ps, findSeq uuidRe text = some ps ∧ getUUID text = ps.flatten := by
  cases hf : findSeq uuidRe text with
  | none => simp [getUUID, hf] at h
  | some ps => exact ⟨ps, rfl, getUUID_of_findSeq text ps hf⟩

/-- C5: an identifier of lowercase hexadecimal groups 8-4-4-4-12 whose third
group starts with 1..5, embedded anywhere in a path, makes `getUUID` return a
non-empty result, and the result is that identifier when the pattern matches
at no earlier position of the path. -/
theorem getUUID_embedded (p u s : List Char) (hu : UUIDShape lowerHex u) :
    getUUID (p ++ u ++ s) ≠ [] ∧
      ((∀ i, i < p.length → matchSeq uuidRe ((p ++ u ++ s).drop i) = none) →
        getUUID (p ++ u ++ s) = u) := by
  have hu' : UUIDShape lowerAlnum u := UUIDShape.mono _ _ lowerAlnum_of_lowerHex u hu
  obtain ⟨ps, hm, hflat⟩ := matchSeq_uuid_of_shape u s hu'
  rw [List.append_assoc]
  constructor
  · obtain ⟨qs, hq⟩ := findSeq_isSome uuidRe p (u ++ s) ps hm
    rw [getUUID_of_findSeq _ _ hq]
    obtain ⟨pre, post, -, hpost⟩ := findSeq_sound _ _ _ hq
    have hlen := UUIDShape.length _ _ (shape_of_matchSeq_uuid _ _ hpost).1
    intro hnil
    rw [hnil] at hlen
    simp at hlen
  · intro hnone
    have hskip := findSeq_skip uuidRe p (u ++ s) hnone
    rw [getUUID_of_findSeq _ ps (by rw [hskip]; exact findSeq_of_matchSeq _ _ _ hm), hflat]

/-- C5, on the path of the specification's example. -/
theorem getUUID_embedded_witness :
    UUIDShape lowerHex "550e8400-e29b-41d4-a716-446655440000".toList ∧
      getUUID ("a/b/".toList ++ "550e8400-e29b-41d4-a716-446655440000".toList
        ++ "__300z300/c".toList) ≠ [] ∧
      getUUID ("a/b/".toList ++ "550e8400-e29b-41d4-a716-446655440000".toList
        ++ "__300z300/c".toList) = "550e8400-e29b-41d4-a716-446655440000".toList :=
  have hu : UUIDShape lowerHex "550e8400-e29b-41d4-a716-446655440000".toList :=
    ⟨"550e8400".toList, "e29b".toList, '4', "1d4".toList, "a716".toList,
      "446655440000".toList, by decide⟩
  ⟨hu,
    (getUUID_embedded "a/b/".toList "550e8400-e29b-41d4-a716-446655440000".toList
      "__300z300/c".toList hu).1,
    (getUUID_embedded "a/b/".toList "550e8400-e29b-41d4-a716-446655440000".toList
      "__300z300/c".toList hu).2 (by decide)⟩

/-- C6, as stated, fails: the pattern takes any lowercase letter for a
hexadecimal digit, so `getUUID` returns a text that is no UUID. -/
theorem getUUID_returns_non_hex :
    getUUID "zzzzzzzz-zzzz-1zzz-zzzz-zzzzzzzzzzzz".toList ≠ [] ∧
      ¬ UUIDShape hexDigit (getUUID "zzzzzzzz-zzzz-1zzz-zzzz-zzzzzzzzzzzz".toList) := by
  have hg : getUUID "zzzzzzzz-zzzz-1zzz-zzzz-zzzzzzzzzzzz".toList
      = "zzzzzzzz-zzzz-1zzz-zzzz-zzzzzzzzzzzz".toList := by decide
  rw [hg]
  refine ⟨by decide, ?_⟩
  rintro ⟨g1, g2, v, g3, g4, g5, hu, l1, -, -, -, -, -, -, a1, -⟩
  match g1, l1, a1, hu with
  | c :: _, _, a1, hu =>
    have hc := a1 c (by simp)
    have : c = 'z' := by
      have := congrArg List.head? hu
      simpa using this.symm
    rw [this] at hc
    exact absurd hc (by decide)

/-- C6, amended: a non-empty result of `getUUID` is a substring of the text
made of five groups of characters of `[a-z0-9]` of lengths 8-4-4-4-12 joined
by `-`, the third group starting with 1..5; a text without such a substring
yields the empty string. -/
theorem getUUID_shape (text : List Char) :
    (getUUID text ≠ [] →
        UUIDShape lowerAlnum (getUUID text) ∧ getUUID text <:+: text) ∧
      ((∀ u, u <:+: text → ¬ UUIDShape lowerAlnum u) → getUUID text = []) := by
  have key : getUUID text ≠ [] →
      UUIDShape lowerAlnum (getUUID text) ∧ getUUID text <:+: text := by
    intro hne
    obtain ⟨ps, hf, hg⟩ := getUUID_of_ne_nil text hne
    obtain ⟨pre, post, htext, hm⟩ := findSeq_sound _ _ _ hf
    obtain ⟨hshape, t, ht⟩ := shape_of_matchSeq_uuid _ _ hm
    rw [hg]
    exact ⟨hshape, pre, t, by rw [htext, ht, List.append_assoc]⟩
  refine ⟨key, ?_⟩
  intro hno
  by_contra hne
  obtain ⟨h1, h2⟩ := key hne
  exact hno _ h2 h1


/-! ## `getSizes` -/

theorem not_digit_of_modeClass (c : Char) (h : modeClass c = true) : digit c = false := by
  simp only [modeClass, Bool.or_eq_true, beq_iff_eq] at h
  rcases h with (rfl | rfl) | rfl <;> rfl

/-- The size pattern matches where a run of digits, a mode character and a
run of digits begin, and takes the three of them. -/
theorem matchSeq_size (W H t : List Char) (c : Char) (hW : isDigits W) (hH : isDigits H)
    (hc : modeClass c = true) (ht : ∀ d, t.head? = some d → digit d = false) :
    matchSeq sizeRe (W ++ (c :: (H ++ t))) = some [W, [c], H] := by
  unfold sizeRe
  apply matchSeq_oneOrMore digit _ W _ _ hW.1 hW.2
  · intro d hd
    simp only [List.head?_cons, Option.some.injEq] at hd
    subst hd
    exact not_digit_of_modeClass _ hc
  · apply matchSeq_exactly modeClass 1 _ [c] (H ++ t) _ rfl
    · intro d hd
      simp only [List.mem_singleton] at hd
      subst hd
      exact hc
    · have := matchSeq_oneOrMore digit [] H t [] hH.1 hH.2 ht rfl
      exact this

theorem isDigits_append_takeWhile (H post : List Char) (hH : isDigits H) :
    isDigits (H ++ post.takeWhile digit) := by
  refine ⟨by simp [hH.1], ?_⟩
  intro c hc
  rcases List.mem_append.mp hc with h | h
  · exact hH.2 c h
  · exact (List.mem_takeWhile_imp h)

theorem head_dropWhile_digit (post : List Char) :
    ∀ d, (post.dropWhile digit).head? = some d → digit d = false := by
  intro d hd
  induction post with
  | nil => simp at hd
  | cons x xs ih =>
    by_cases hx : digit x = true
    · rw [List.dropWhile_cons_of_pos hx] at hd
      exact ih hd
    · rw [List.dropWhile_cons_of_neg hx] at hd
      simp only [List.head?_cons, Option.some.injEq] at hd
      subst hd
      simpa using hx

/-- Pieces of a match of the size pattern: digits, one mode character, digits. -/
theorem pieces_of_matchSeq_size (s : List Char) (ps : List (List Char))
    (h : matchSeq sizeRe s = some ps) :
    ∃ W c H t, ps = [W, [c], H] ∧ s = W ++ (c :: (H ++ t)) ∧ isDigits W ∧ isDigits H ∧
      modeClass c = true := by
  obtain ⟨hall, t, ht⟩ := matchSeq_sound _ _ _ h
  simp only [sizeRe, List.forall₂_cons_left_iff, List.forall₂_nil_left_iff] at hall
  obtain ⟨W, _, f1, ⟨p2, _, f2, ⟨H, _, f3, rfl, rfl⟩, rfl⟩, rfl⟩ := hall
  obtain ⟨c, rfl, hc⟩ := fits_single _ _ f2
  refine ⟨W, c, H, t, rfl, by simpa using ht, ⟨?_, f1.2.2⟩, ⟨?_, f3.2.2⟩, hc⟩
  · intro hnil
    have := f1.1
    rw [hnil] at this
    simp [oneOrMore] at this
  · intro hnil
    have := f3.1
    rw [hnil] at this
    simp [oneOrMore] at this

/-- The branches of `getSizes` on the two parsed numbers are the size rule. -/
theorem getSizes_of_find (cfg : ImageConfig) (path s0 seg : List Char)
    (more : List (List Char)) (p1 p2 p3 : List Char)
    (hseg : Split path ['_', '_'] = s0 :: seg :: more)
    (hf : findSeq sizeRe seg = some [p1, p2, p3]) :
    getSizes cfg path =
      some ((specSizes cfg (Atoi p1) (Atoi p3)).1, p2, (specSizes cfg (Atoi p1) (Atoi p3)).2) := by
  simp only [getSizes, hseg, FindStringSubmatch, hf, specSizes]
  by_cases h1 : Atoi p1 = 0 <;> by_cases h3 : Atoi p3 = 0 <;> simp [h1, h3]

theorem getSizes_of_find_none (cfg : ImageConfig) (path s0 seg : List Char)
    (more : List (List Char)) (hseg : Split path ['_', '_'] = s0 :: seg :: more)
    (hf : findSeq sizeRe seg = none) : getSizes cfg path = none := by
  simp [getSizes, hseg, FindStringSubmatch, hf]


theorem Atoi_digits (W : List Char) (hW : isDigits W) :
    Atoi W = min (decVal W : Int) maxInt := by
  obtain ⟨hne, hall⟩ := hW
  match W, hne, hall with
  | c :: cs, _, hall =>
    have hc : digit c = true := hall c (by simp)
    have hminus : c ≠ '-' := by
      rintro rfl
      exact absurd hc (by decide)
    have hplus : c ≠ '+' := by
      rintro rfl
      exact absurd hc (by decide)
    have hall' : (c :: cs).all digit = true := by
      rw [List.all_eq_true]
      exact hall
    simp only [Atoi, List.head?_cons]
    simp [hminus, hplus, hall']

/-- A text without `"__"` is one segment. -/
theorem Split_go_no_sep (t : List Char) (cur : List Char) (fuel : Nat)
    (ht : ¬ ['_', '_'] <:+: t) (hfuel : t.length < fuel) :
    Split.go ['_', '_'] fuel cur t = [cur ++ t] := by
  induction t generalizing cur fuel with
  | nil =>
    cases fuel with
    | zero => simp at hfuel
    | succ n => simp [Split.go]
  | cons c cs ih =>
    cases fuel with
    | zero => simp at hfuel
    | succ n =>
      have hpre : ¬ (['_', '_'].isPrefixOf (c :: cs) = true) := by
        rw [List.isPrefixOf_iff_prefix]
        exact fun h => ht h.isInfix
      have hcs : ¬ ['_', '_'] <:+: cs := fun h => ht (h.trans (List.suffix_cons c cs).isInfix)
      simp only [Split.go, hpre, if_false]
      rw [ih (cur ++ [c]) n hcs (by simpa using hfuel)]
      simp

theorem no_sep_of_no_underscore (k r : List Char) (hk : k = [] ∨ k = ['_'])
    (hr : '_' ∉ r) : ¬ ['_', '_'] <:+: k ++ r := by
  rintro ⟨p, q, hpq⟩
  rcases hk with rfl | rfl
  · apply hr
    simp only [List.nil_append] at hpq
    rw [← hpq]
    simp
  · apply hr
    cases p with
    | nil =>
      simp only [List.nil_append, List.cons_append, List.cons.injEq, true_and] at hpq
      rw [← hpq]
      simp
    | cons x xs =>
      simp only [List.cons_append, List.nil_append, List.cons.injEq] at hpq
      rw [← hpq.2]
      simp

theorem Split_go_cons (sep : List Char) (fuel : Nat) (cur : List Char) (c : Char)
    (cs : List Char) :
    Split.go sep (fuel + 1) cur (c :: cs) =
      if sep.isPrefixOf (c :: cs) then cur :: Split.go sep fuel [] ((c :: cs).drop sep.length)
      else Split.go sep fuel (cur ++ [c]) cs := rfl

/-- Splitting `a ++ "__" ++ r` when `a` has no `"__"` and `r` no underscore:
two segments, the second being `r`, after one underscore when `a` ends in one. -/
theorem Split_go_first (a r cur : List Char) (fuel : Nat) (ha : ¬ ['_', '_'] <:+: a)
    (hr : '_' ∉ r) (hfuel : (a ++ '_' :: '_' :: r).length < fuel) :
    ∃ x k, (k = [] ∨ k = ['_']) ∧
      Split.go ['_', '_'] fuel cur (a ++ '_' :: '_' :: r) = [x, k ++ r] := by
  induction a generalizing cur fuel with
  | nil =>
    cases fuel with
    | zero => simp at hfuel
    | succ n =>
      refine ⟨cur, [], Or.inl rfl, ?_⟩
      have hpre : ['_', '_'].isPrefixOf ('_' :: '_' :: r) = true := by
        rw [List.isPrefixOf_iff_prefix]
        exact ⟨r, rfl⟩
      rw [List.nil_append, Split_go_cons, if_pos hpre]
      have := Split_go_no_sep r [] n (no_sep_of_no_underscore [] r (Or.inl rfl) hr)
        (by simp at hfuel; omega)
      simpa using this
  | cons c cs ih =>
    cases fuel with
    | zero => simp at hfuel
    | succ n =>
      have hcs : ¬ ['_', '_'] <:+: cs := fun h => ha (h.trans (List.suffix_cons c cs).isInfix)
      rw [List.cons_append, Split_go_cons]
      by_cases hpre : ['_', '_'].isPrefixOf (c :: (cs ++ '_' :: '_' :: r)) = true
      · rw [if_pos hpre]
        rw [List.isPrefixOf_iff_prefix] at hpre
        obtain ⟨q, hq⟩ := hpre
        simp only [List.cons_append, List.nil_append, List.cons.injEq] at hq
        obtain ⟨hc, hq⟩ := hq
        cases cs with
        | nil =>
          refine ⟨cur, ['_'], Or.inr rfl, ?_⟩
          have := Split_go_no_sep ('_' :: r) [] n
            (no_sep_of_no_underscore ['_'] r (Or.inr rfl) hr)
            (by simp only [List.length_append, List.length_cons, List.length_nil] at hfuel ⊢
                omega)
          simpa using this
        | cons d ds =>
          exfalso
          simp only [List.cons_append, List.cons.injEq] at hq
          apply ha
          rw [← hc, ← hq.1]
          exact ⟨[], ds, rfl⟩
      · rw [if_neg hpre]
        exact ih (cur ++ [c]) n hcs (by simpa using hfuel)

theorem underscore_not_in_size (W H : List Char) (m : Char) (hW : isDigits W)
    (hH : isDigits H) (hm : m = 'z' ∨ m = 'x') : '_' ∉ W ++ (m :: (H ++ [])) := by
  intro h
  simp only [List.append_nil, List.mem_append, List.mem_cons] at h
  rcases h with h | h | h
  · exact absurd (hW.2 _ h) (by decide)
  · rcases hm with rfl | rfl <;> exact absurd h (by decide)
  · exact absurd (hH.2 _ h) (by decide)

/-- C3: on a path `a ++ "__" ++ W ++ m ++ H` with no `"__"` in `a`, digit
strings `W` and `H` whose values fit in an `int` and `m` one of `z`, `x`,
`getSizes` returns the mode `m` with the sizes of the size rule: the two
values when both are non-zero, the non-zero one twice when exactly one is
zero, the configured default when both are zero. -/
theorem getSizes_wellformed (cfg : ImageConfig) (a W H : List Char) (m : Char)
    (ha : ¬ ['_', '_'] <:+: a) (hW : isDigits W) (hH : isDigits H)
    (hWfit : (decVal W : Int) ≤ maxInt) (hHfit : (decVal H : Int) ≤ maxInt)
    (hm : m = 'z' ∨ m = 'x') :
    getSizes cfg (a ++ ['_', '_'] ++ W ++ [m] ++ H) =
      some ((specSizes cfg (decVal W) (decVal H)).1, [m],
        (specSizes cfg (decVal W) (decVal H)).2) := by
  have hmc : modeClass m = true := by
    rcases hm with rfl | rfl <;> rfl
  have hpath : a ++ ['_', '_'] ++ W ++ [m] ++ H = a ++ '_' :: '_' :: (W ++ (m :: (H ++ []))) := by
    simp
  have hr := underscore_not_in_size W H m hW hH hm
  obtain ⟨x, k, hk, hsplit⟩ := Split_go_first a (W ++ (m :: (H ++ []))) []
    ((a ++ '_' :: '_' :: (W ++ (m :: (H ++ [])))).length + 1) ha hr (Nat.lt_succ_self _)
  have hseg : Split (a ++ ['_', '_'] ++ W ++ [m] ++ H) ['_', '_']
      = x :: (k ++ (W ++ (m :: (H ++ [])))) :: [] := by
    rw [hpath]
    exact hsplit
  have hm3 := matchSeq_size W H [] m hW hH hmc (by simp)
  have hfind : findSeq sizeRe (k ++ (W ++ (m :: (H ++ [])))) = some [W, [m], H] := by
    rcases hk with rfl | rfl
    · exact findSeq_of_matchSeq _ _ _ hm3
    · rw [findSeq_skip sizeRe ['_'] _ ?_]
      · exact findSeq_of_matchSeq _ _ _ hm3
      · intro i hi
        have hi0 : i = 0 := by simpa using hi
        subst hi0
        simp [sizeRe, matchSeq, Atom.most, oneOrMore, digit]
  rw [getSizes_of_find cfg _ x _ [] W [m] H hseg hfind, Atoi_digits W hW, Atoi_digits H hH,
    min_eq_left hWfit, min_eq_left hHfit]

/-- C3, on the three examples of the specification's zero rule. -/
theorem getSizes_wellformed_witness :
    getSizes sampleCfg ("a".toList ++ ['_', '_'] ++ "300".toList ++ ['z'] ++ "0".toList)
        = some (300, ['z'], 300) ∧
      getSizes sampleCfg ("a".toList ++ ['_', '_'] ++ "0".toList ++ ['x'] ++ "200".toList)
        = some (200, ['x'], 200) ∧
      getSizes sampleCfg ("a".toList ++ ['_', '_'] ++ "0".toList ++ ['z'] ++ "0".toList)
        = some (sampleCfg.DefaultWidth, ['z'], sampleCfg.DefaultHeight) :=
  ⟨getSizes_wellformed sampleCfg "a".toList "300".toList "0".toList 'z'
      (by decide) ⟨by decide, by decide⟩ ⟨by decide, by decide⟩ (by decide) (by decide)
      (Or.inl rfl),
    getSizes_wellformed sampleCfg "a".toList "0".toList "200".toList 'x'
      (by decide) ⟨by decide, by decide⟩ ⟨by decide, by decide⟩ (by decide) (by decide)
      (Or.inr rfl),
    getSizes_wellformed sampleCfg "a".toList "0".toList "0".toList 'z'
      (by decide) ⟨by decide, by decide⟩ ⟨by decide, by decide⟩ (by decide) (by decide)
      (Or.inl rfl)⟩

/-- C4, as stated, fails: the pattern is searched for anywhere in the second
segment, so a size surrounded by other text is accepted. -/
theorem getSizes_accepts_surrounded :
    Split "a__foo300z200bar".toList ['_', '_'] = ["a".toList, "foo300z200bar".toList] ∧
      ¬ SizeSegment "foo300z200bar".toList ∧
      getSizes sampleCfg "a__foo300z200bar".toList = some (300, ['z'], 200) := by
  refine ⟨by decide, ?_, by decide⟩
  rintro ⟨W, c, H, hseg, ⟨hne, hall⟩, -, -⟩
  match W, hne, hall, hseg with
  | d :: _, _, hall, hseg =>
    have hd := hall d (by simp)
    have : d = 'f' := by
      have := congrArg List.head? hseg
      simpa using this.symm
    rw [this] at hd
    exact absurd hd (by decide)

/-- The bar inside the brackets of the pattern is a mode character for
`getSizes`. -/
theorem getSizes_bar_mode :
    getSizes sampleCfg "a__300|200".toList = some (300, ['|'], 200) := by decide

/-- C4, amended: on a path with a second segment that has no `|`, `getSizes`
returns exactly when the segment has a part of the shape digits, `z` or `x`,
digits (it fails by a run-time panic otherwise), and the mode it returns is
`z` or `x`. -/
theorem getSizes_second_segment (cfg : ImageConfig) (path s0 seg : List Char)
    (more : List (List Char)) (hseg : Split path ['_', '_'] = s0 :: seg :: more)
    (hbar : '|' ∉ seg) :
    ((getSizes cfg path).isSome = true ↔ HasSizePart seg) ∧
      ∀ w m h, getSizes cfg path = some (w, m, h) → m = ['z'] ∨ m = ['x'] := by
  have hmode : ∀ c, c ∈ seg → modeClass c = true → c = 'z' ∨ c = 'x' := by
    intro c hc hm
    simp only [modeClass, Bool.or_eq_true, beq_iff_eq] at hm
    rcases hm with (h | h) | h
    · exact Or.inl h
    · exact absurd (h ▸ hc) hbar
    · exact Or.inr h
  have hfound : ∀ ps, findSeq sizeRe seg = some ps →
      ∃ pre W c H t, ps = [W, [c], H] ∧ seg = pre ++ W ++ c :: H ++ t ∧ isDigits W ∧
        isDigits H ∧ (c = 'z' ∨ c = 'x') := by
    intro ps hf
    obtain ⟨pre, post, hsp, hm⟩ := findSeq_sound _ _ _ hf
    obtain ⟨W, c, H, t, hps, hpost, hW, hH, hc⟩ := pieces_of_matchSeq_size _ _ hm
    have hseg' : seg = pre ++ W ++ c :: H ++ t := by
      rw [hsp, hpost]
      simp
    refine ⟨pre, W, c, H, t, hps, hseg', hW, hH, hmode c ?_ hc⟩
    rw [hseg']
    simp
  refine ⟨⟨?_, ?_⟩, ?_⟩
  · intro hsome
    cases hf : findSeq sizeRe seg with
    | none =>
      rw [getSizes_of_find_none cfg path s0 seg more hseg hf] at hsome
      exact absurd hsome (by simp)
    | some ps =>
      obtain ⟨pre, W, c, H, t, -, h1, h2, h3, h4⟩ := hfound ps hf
      exact ⟨pre, W, c, H, t, h1, h2, h3, h4⟩
  · rintro ⟨pre, W, c, H, post, hsg, hW, hH, hc⟩
    have hmc : modeClass c = true := by
      rcases hc with rfl | rfl <;> rfl
    have hm := matchSeq_size W (H ++ post.takeWhile digit) (post.dropWhile digit) c hW
      (isDigits_append_takeWhile H post hH) hmc (head_dropWhile_digit post)
    have hsg' : seg = pre ++ (W ++ (c :: ((H ++ post.takeWhile digit)
        ++ post.dropWhile digit))) := by
      rw [hsg, List.append_assoc H, List.takeWhile_append_dropWhile]
      simp
    obtain ⟨qs, hq⟩ := findSeq_isSome sizeRe pre _ _ hm
    rw [← hsg'] at hq
    obtain ⟨_, W', c', H', _, hps, -⟩ := hfound qs hq
    rw [hps] at hq
    rw [getSizes_of_find cfg path s0 seg more W' [c'] H' hseg hq]
    rfl
  · intro w m h hres
    cases hf : findSeq sizeRe seg with
    | none =>
      rw [getSizes_of_find_none cfg path s0 seg more hseg hf] at hres
      exact absurd hres (by simp)
    | some ps =>
      obtain ⟨_, W, c, H, _, hps, -, -, -, hc⟩ := hfound ps hf
      rw [hps] at hf
      rw [getSizes_of_find cfg path s0 seg more W [c] H hseg hf] at hres
      simp only [Option.some.injEq, Prod.mk.injEq] at hres
      rw [← hres.2.1]
      rcases hc with rfl | rfl
      · exact Or.inl rfl
      · exact Or.inr rfl

/-- C4, amended, on a segment with text around the size and on one without a
size. -/
theorem getSizes_second_segment_witness :
    ((getSizes sampleCfg "a__foo300z200bar".toList).isSome = true ↔
        HasSizePart "foo300z200bar".toList) ∧
      ∀ w m h, getSizes sampleCfg "a__foo300z200bar".toList = some (w, m, h) →
        m = ['z'] ∨ m = ['x'] :=
  getSizes_second_segment sampleCfg "a__foo300z200bar".toList "a".toList
    "foo300z200bar".toList [] (by decide) (by decide)


/-! ## `get` and `post` -/

/-- C1: a GET whose path holds an identifier and whose cache file reads as `b`
writes `b` to the response and does nothing else: no `processImage`, no
`Asset.Find`, no cache write, and the world is left as it was. -/
theorem get_cache_hit (env : Env) (req : Request) (w : World) (b : Bytes)
    (hid : getUUID (TrimPrefix req.Path ['/']) ≠ [])
    (hhit : w.fs.files (cachedFile env req) = some b) :
    (get env req w).out = .returned ∧ (get env req w).events = [.write b] ∧
      responseBody (get env req w).events = b ∧
      invokesProcessImage (get env req w).events = false ∧
      invokesFind (get env req w).events = false ∧
      writesCache (get env req w).events = false ∧
      (get env req w).world = w := by
  have hget : get env req w = ⟨.returned, w, [.write b]⟩ := by
    simp only [get, hid, hhit, ne_eq, not_false_eq_true, if_true]
  rw [hget]
  simp [responseBody, invokesProcessImage, invokesFind, writesCache]

/-- C1, on a cache that holds three bytes for the sample request. -/
theorem get_cache_hit_witness :
    (get (sampleEnv []) (sampleReq true) (warmCache [1, 2, 3])).out = .returned ∧
      (get (sampleEnv []) (sampleReq true) (warmCache [1, 2, 3])).events = [.write [1, 2, 3]] ∧
      responseBody (get (sampleEnv []) (sampleReq true) (warmCache [1, 2, 3])).events
        = [1, 2, 3] ∧
      invokesProcessImage (get (sampleEnv []) (sampleReq true) (warmCache [1, 2, 3])).events
        = false ∧
      invokesFind (get (sampleEnv []) (sampleReq true) (warmCache [1, 2, 3])).events = false ∧
      writesCache (get (sampleEnv []) (sampleReq true) (warmCache [1, 2, 3])).events = false ∧
      (get (sampleEnv []) (sampleReq true) (warmCache [1, 2, 3])).world = warmCache [1, 2, 3] :=
  get_cache_hit (sampleEnv []) (sampleReq true) (warmCache [1, 2, 3]) [1, 2, 3]
    (by decide) (by decide)

/-- No call of `processImage` takes its error return: a decode error panics first. -/
theorem processImage_never_err (env : Env) (input : Bytes) (mode : List Char)
    (width height : Int) (w : World) (e : Bytes) :
    (processImage env input mode width height w).1 ≠ .err e := by
  unfold processImage
  split
  · split
    · simp
    · split
      · simp
      · split <;> simp
  · simp

/-- Result of `processImage` on input that decodes, with a free slot and mode `z` or
`x`: the buffer is the encoding at `ReadQuality`, and the slot is given back. -/
theorem processImage_ok (env : Env) (input : Bytes) (mode : List Char) (width height : Int)
    (w : World) (img : env.codec.Img) (hslot : w.inUse < capacity env.cfg)
    (hdec : env.codec.decode input = .ok img) (hmode : mode = ['z'] ∨ mode = ['x']) :
    ∃ buf ev, processImage env input mode width height w = (.ok buf, w, ev) ∧
      responseBody ev = [] := by
  rcases hmode with rfl | rfl
  · exact ⟨env.codec.encode (env.codec.fit img width height) env.cfg.ReadQuality,
      [.processImage ['z'] width height, .send, .decode input, .fit width height,
        .encode env.cfg.ReadQuality, .recv],
      by simp [processImage, hslot, hdec], by simp [responseBody]⟩
  · exact ⟨env.codec.encode (env.codec.fill img width height) env.cfg.ReadQuality,
      [.processImage ['x'] width height, .send, .decode input, .fill width height,
        .encode env.cfg.ReadQuality, .recv],
      by simp [processImage, hslot, hdec], by simp [responseBody]⟩

theorem responseBody_append (es fs : List Event) :
    responseBody (es ++ fs) = responseBody es ++ responseBody fs := by
  induction es with
  | nil => rfl
  | cons e es ih => cases e <;> simp [responseBody, ih]

/-- C2, as stated, fails: in a cache where the file cannot be created (its
directory is missing, or the cache is read-only) the error of `os.Create` is
dropped, the first GET answers all the same, and the second GET transforms
again. -/
theorem get_twice_closed_cache :
    getUUID (TrimPrefix (sampleReq true).Path ['/']) = sampleId ∧
      getSizes sampleCfg (TrimPrefix (sampleReq true).Path ['/']) = some (300, ['z'], 200) ∧
      (get (sampleEnv [7]) (sampleReq true) closedCache).out = .returned ∧
      invokesProcessImage (get (sampleEnv [7]) (sampleReq true)
        (get (sampleEnv [7]) (sampleReq true) closedCache).world).events = true := by
  decide

/-- C2, amended: when the variant is already cached, or a limiter slot is
free, the cache file can be created and written and the response write
succeeds, two GETs in a row for a stored asset that decodes, on a path with
its identifier and a size that `getSizes` reads with mode `z` or `x`, both
return, send the same body, and the second one does not enter `processImage`. -/
theorem get_twice (env : Env) (req : Request) (w : World) (asset : Asset)
    (img : env.codec.Img) (width height : Int) (mode : List Char)
    (hid : getUUID (TrimPrefix req.Path ['/']) ≠ [])
    (hsz : getSizes env.cfg (TrimPrefix req.Path ['/']) = some (width, mode, height))
    (hmode : mode = ['z'] ∨ mode = ['x'])
    (hfind : env.Find (getUUID (TrimPrefix req.Path ['/'])) = .ok asset)
    (hdec : env.codec.decode asset.Binary = .ok img)
    (hcache : (w.fs.files (cachedFile env req)).isSome = true ∨
      (w.inUse < capacity env.cfg ∧ w.fs.creatable (cachedFile env req) = true ∧
        w.fs.writable (cachedFile env req) = true ∧ req.clientOk = true)) :
    (get env req w).out = .returned ∧
      (get env req (get env req w).world).out = .returned ∧
      responseBody (get env req w).events
        = responseBody (get env req (get env req w).world).events ∧
      invokesProcessImage (get env req (get env req w).world).events = false := by
  cases hfile : w.fs.files (cachedFile env req) with
  | some b =>
    have hget : get env req w = ⟨.returned, w, [.write b]⟩ := by
      simp only [get, hid, hfile, ne_eq, not_false_eq_true, if_true]
    rw [hget]
    simp only [hget]
    simp [invokesProcessImage]
  | none =>
    rw [hfile] at hcache
    rcases hcache with hc | ⟨hslot, hcreate, hwrite, hclient⟩
    · exact absurd hc (by simp)
    · obtain ⟨buf, ev, hproc, hev⟩ :=
        processImage_ok env asset.Binary mode width height w img hslot hdec hmode
      have hget : get env req w =
          ⟨.returned,
            { w with fs := (w.fs.create (cachedFile env req)).put (cachedFile env req) buf },
            .find (getUUID (TrimPrefix req.Path ['/'])) :: ev ++
              [.create (cachedFile env req), .write buf,
                .fileWrite (cachedFile env req) buf]⟩ := by
        simp [get, hid, hfile, hsz, hfind, hproc, hcreate, hclient, hwrite, FS.create]
      have hfile2 : ((w.fs.create (cachedFile env req)).put (cachedFile env req) buf).files
          (cachedFile env req) = some buf := by
        simp [FS.put]
      have hget2 : get env req
            { w with fs := (w.fs.create (cachedFile env req)).put (cachedFile env req) buf } =
          ⟨.returned,
            { w with fs := (w.fs.create (cachedFile env req)).put (cachedFile env req) buf },
            [.write buf]⟩ := by
        simp only [get, hid, hfile2, ne_eq, not_false_eq_true, if_true]
      rw [hget]
      simp only [hget2]
      refine ⟨trivial, trivial, ?_, by simp [invokesProcessImage]⟩
      simp [responseBody, responseBody_append, hev]

/-- C2, amended, on the sample request against an empty cache in which files
can be created. -/
theorem get_twice_witness :
    (get (sampleEnv [7]) (sampleReq true) emptyCache).out = .returned ∧
      (get (sampleEnv [7]) (sampleReq true)
        (get (sampleEnv [7]) (sampleReq true) emptyCache).world).out = .returned ∧
      responseBody (get (sampleEnv [7]) (sampleReq true) emptyCache).events
        = responseBody (get (sampleEnv [7]) (sampleReq true)
            (get (sampleEnv [7]) (sampleReq true) emptyCache).world).events ∧
      invokesProcessImage (get (sampleEnv [7]) (sampleReq true)
        (get (sampleEnv [7]) (sampleReq true) emptyCache).world).events = false :=
  get_twice (sampleEnv [7]) (sampleReq true) emptyCache
    ⟨sampleId, "cat.jpg".toList, [], "image/jpeg".toList, 0, [7]⟩ ([7] : Bytes) 300 200 ['z']
    (by decide) (by decide) (Or.inl rfl) (by rfl) rfl
    (Or.inr ⟨by decide, rfl, rfl, rfl⟩)


/-- On a cache miss whose asset does not decode, with a free limiter slot,
`get` panics inside `processImage`: it writes no status, no body, no cache
file, and the slot is given back. -/
theorem get_decode_failure (env : Env) (req : Request) (w : World) (asset : Asset)
    (e : Bytes) (width height : Int) (mode : List Char)
    (hid : getUUID (TrimPrefix req.Path ['/']) ≠ [])
    (hmiss : w.fs.files (cachedFile env req) = none)
    (hsz : getSizes env.cfg (TrimPrefix req.Path ['/']) = some (width, mode, height))
    (hfind : env.Find (getUUID (TrimPrefix req.Path ['/'])) = .ok asset)
    (hdec : env.codec.decode asset.Binary = .error e)
    (hslot : w.inUse < capacity env.cfg) :
    (get env req w).out = .panicked ∧ statusCodes (get env req w).events = [] ∧
      responseBody (get env req w).events = [] ∧
      writesCache (get env req w).events = false ∧ (get env req w).world = w := by
  have hproc : processImage env asset.Binary mode width height w =
      (.panic, w, [.processImage mode width height, .send, .decode asset.Binary,
        .logPanic e, .recv]) := by
    simp [processImage, hslot, hdec]
  have hget : get env req w =
      ⟨.panicked, w, .find (getUUID (TrimPrefix req.Path ['/'])) ::
        [.processImage mode width height, .send, .decode asset.Binary, .logPanic e, .recv]⟩ := by
    simp [get, hid, hmiss, hsz, hfind, hproc]
  rw [hget]
  simp [statusCodes, responseBody, writesCache]

/-- C7, the code at the failing input: the stored bytes do not decode, and
the GET ends in the panic of `log.Panic(err)` inside `processImage`; no status
500 and no error text are written (and no cache file either). -/
theorem get_decode_failure_panics :
    (sampleEnv []).codec.decode [] = .error [110, 111] ∧
      (get (sampleEnv []) (sampleReq true) emptyCache).out = .panicked ∧
      statusCodes (get (sampleEnv []) (sampleReq true) emptyCache).events = [] ∧
      responseBody (get (sampleEnv []) (sampleReq true) emptyCache).events = [] ∧
      writesCache (get (sampleEnv []) (sampleReq true) emptyCache).events = false :=
  ⟨rfl, by decide, by decide, by decide, by decide⟩

/-- Whatever the request, every encode of `post` gets `ReadQuality`. -/
theorem post_quality (env : Env) (req : Request) (w : World) :
    ∀ q ∈ encodeQualities (post env req w).events, q = env.cfg.ReadQuality := by
  have hproc : ∀ input width height,
      ∀ q ∈ encodeQualities (processImage env input ['z'] width height w).2.2,
        q = env.cfg.ReadQuality := by
    intro input width height q hq
    unfold processImage at hq
    split at hq
    · split at hq
      · simp [encodeQualities] at hq
      · simp [encodeQualities] at hq
        exact hq
    · simp [encodeQualities] at hq
  have happ : ∀ es fs, encodeQualities (es ++ fs) = encodeQualities es ++ encodeQualities fs := by
    intro es fs
    induction es with
    | nil => rfl
    | cons e es ih => cases e <;> simp [encodeQualities, ih]
  intro q hq
  by_cases hpath : req.Path = [] ∨ req.Path = ['/']
  · simp [post, hpath, encodeQualities] at hq
  · cases hfile : req.file with
    | error e => simp [post, hpath, hfile, encodeQualities] at hq
    | ok fc =>
      obtain ⟨filename, content⟩ := fc
      have hp := hproc content env.cfg.StoreWidth env.cfg.StoreHeight q
      rcases hpr : processImage env content ['z'] env.cfg.StoreWidth env.cfg.StoreHeight w
        with ⟨res, w2, ev⟩
      rw [hpr] at hp
      cases res with
      | ok buf =>
        cases hsave : env.Save
            { Id := [], Name := env.QueryUnescape filename,
              Path := Split (TrimPrefix req.Path ['/']) ['/'],
              ContentType := "image/jpeg".toList, CreatedAt := req.now, Binary := buf } with
        | error e =>
          simp only [post, hpath, hfile, hpr, hsave, if_false, happ, encodeQualities,
            List.append_nil] at hq
          exact hp hq
        | ok saved =>
          simp only [post, hpath, hfile, hpr, hsave, if_false, happ, encodeQualities,
            List.append_nil] at hq
          exact hp hq
      | err e =>
        simp only [post, hpath, hfile, hpr, if_false, happ, encodeQualities,
          List.append_nil] at hq
        exact hp hq
      | panic =>
        simp only [post, hpath, hfile, hpr, if_false] at hq
        exact hp hq
      | blocked =>
        simp only [post, hpath, hfile, hpr, if_false] at hq
        exact hp hq

/-- C9, the code at the failing input: with store quality 90 and read quality
75 configured, an upload is encoded once, at quality 75. -/
theorem post_encodes_with_read_quality :
    sampleCfg.StoreQuality = 90 ∧ sampleCfg.ReadQuality = 75 ∧
      (post (sampleEnv []) sampleUpload emptyCache).out = .returned ∧
      encodeQualities (post (sampleEnv []) sampleUpload emptyCache).events = [75] :=
  ⟨rfl, rfl, by decide, by decide⟩

/-- C10, the code at the failing input: the transform succeeds and the cache
file is created, the write to the response fails, and the cache file is left
empty instead of receiving the transformed bytes; the next GET serves the
empty file as a hit. -/
theorem get_client_gone_leaves_empty_cache :
    (get (sampleEnv [7]) (sampleReq false) emptyCache).events =
        [.find sampleId, .processImage ['z'] 300 200, .send, .decode [7], .fit 300 200,
          .encode 75, .recv, .create (cachedFile (sampleEnv [7]) (sampleReq false)),
          .write [75, 0, 7]] ∧
      (get (sampleEnv [7]) (sampleReq false) emptyCache).world.fs.files
        (cachedFile (sampleEnv [7]) (sampleReq false)) = some [] ∧
      (get (sampleEnv [7]) (sampleReq true)
        (get (sampleEnv [7]) (sampleReq false) emptyCache).world).events = [.write []] :=
  ⟨by decide, by decide, by decide⟩


/-! ## The limiter -/

theorem countP_set (p : Call → Bool) (l : List Call) (i : Nat) (c c' : Call)
    (h : l[i]? = some c) :
    (l.set i c').countP p + (if p c = true then 1 else 0)
      = l.countP p + (if p c' = true then 1 else 0) := by
  induction l generalizing i with
  | nil => simp at h
  | cons x xs ih =>
    cases i with
    | zero =>
      simp only [List.getElem?_cons_zero, Option.some.injEq] at h
      subst h
      simp only [List.set_cons_zero, List.countP_cons]
      omega
    | succ i =>
      simp only [List.getElem?_cons_succ] at h
      have := ih i h
      simp only [List.set_cons_succ, List.countP_cons]
      omega

theorem step_of_stepCall (cap : Nat) (s : Sys) (i : Nat) (b : Bool) (c c' : Call) (u : Nat)
    (hc : s.calls[i]? = some c) (hs : stepCall cap s.inUse b c = some (u, c')) :
    step cap s i b = ⟨u, s.calls.set i c'⟩ ∧ (step cap s i b).calls[i]? = some c' := by
  have hstep : step cap s i b = ⟨u, s.calls.set i c'⟩ := by
    simp only [step, hc, hs]
  rw [hstep]
  refine ⟨rfl, ?_⟩
  obtain ⟨hi, -⟩ := List.getElem?_eq_some.mp hc
  exact List.getElem?_set_self hi

theorem step_of_stepCall_none (cap : Nat) (s : Sys) (i : Nat) (b : Bool) (c : Call)
    (hc : s.calls[i]? = some c) (hs : stepCall cap s.inUse b c = none) :
    step cap s i b = s := by
  simp only [step, hc, hs]

theorem inv_set (cap : Nat) (s : Sys) (i u : Nat) (c c' : Call) (hinv : Inv cap s)
    (hc : s.calls[i]? = some c) (hlog : c'.logged) (hu : u ≤ cap)
    (hheld : u + (if c.holding = true then 1 else 0)
      = s.inUse + (if c'.holding = true then 1 else 0)) :
    Inv cap ⟨u, s.calls.set i c'⟩ := by
  obtain ⟨h1, -, h3⟩ := hinv
  refine ⟨?_, hu, ?_⟩
  · have := countP_set Call.holding s.calls i c c' hc
    simp only [held] at h1 ⊢
    omega
  · intro x hx
    rcases List.mem_or_eq_of_mem_set hx with h | h
    · exact h3 x h
    · rw [h]; exact hlog

theorem held_pos_of_holding (s : Sys) (i : Nat) (c : Call) (hc : s.calls[i]? = some c)
    (hh : c.holding = true) : 0 < held s :=
  List.countP_pos_iff.mpr ⟨c, List.getElem?_mem hc, hh⟩

/-- Every move keeps the invariant. -/
theorem step_inv (cap : Nat) (s : Sys) (i : Nat) (b : Bool) (hinv : Inv cap s) :
    Inv cap (step cap s i b) := by
  cases hc : s.calls[i]? with
  | none => simpa only [step, hc] using hinv
  | some c =>
    cases hs : stepCall cap s.inUse b c with
    | none => simpa only [step, hc, hs] using hinv
    | some r =>
      obtain ⟨u, c'⟩ := r
      rw [(step_of_stepCall cap s i b c c' u hc hs).1]
      have hlog : c.logged := hinv.2.2 c (List.getElem?_mem hc)
      have hle := hinv.2.1
      have h1 := hinv.1
      obtain ⟨pc, mode, acts⟩ := c
      cases pc
      · -- idle: the send
        simp only [Call.logged] at hlog
        simp only [stepCall] at hs
        split at hs
        · simp only [Option.some.injEq, Prod.mk.injEq] at hs
          obtain ⟨rfl, rfl⟩ := hs
          refine inv_set cap s i _ _ _ hinv hc ?_ (by omega) ?_
          · simp [Call.logged, hlog]
          · simp [Call.holding]
        · exact absurd hs (by simp)
      · -- entered: the decode
        simp only [Call.logged] at hlog
        simp only [stepCall, Option.some.injEq, Prod.mk.injEq] at hs
        obtain ⟨rfl, rfl⟩ := hs
        refine inv_set cap s i _ _ _ hinv hc ?_ hle ?_
        · cases b <;> simp [Call.logged, hlog]
        · cases b <;> simp [Call.holding]
      · -- decoded: return or panic in the encoder, deferred receive
        have hpos := held_pos_of_holding s i _ hc (by simp [Call.holding])
        simp only [Call.logged] at hlog
        simp only [stepCall] at hs
        split at hs
        · simp only [Option.some.injEq, Prod.mk.injEq] at hs
          obtain ⟨rfl, rfl⟩ := hs
          refine inv_set cap s i _ _ _ hinv hc ?_ (by omega) ?_
          · by_cases hm : mode = ['z'] ∨ mode = ['x']
            · simp [Call.logged, hlog, hm]
            · simp [Call.logged, hlog, hm]
          · by_cases hm : mode = ['z'] ∨ mode = ['x']
            · simp [Call.holding, hm]
              omega
            · simp [Call.holding, hm]
              omega
        · exact absurd hs (by simp)
      · -- failed: panic, deferred receive
        have hpos := held_pos_of_holding s i _ hc (by simp [Call.holding])
        simp only [Call.logged] at hlog
        simp only [stepCall] at hs
        split at hs
        · simp only [Option.some.injEq, Prod.mk.injEq] at hs
          obtain ⟨rfl, rfl⟩ := hs
          refine inv_set cap s i _ _ _ hinv hc ?_ (by omega) ?_
          · simp [Call.logged, hlog]
          · simp [Call.holding]
            omega
        · exact absurd hs (by simp)
      · simp [stepCall] at hs
      · simp [stepCall] at hs

theorem start_inv (cap : Nat) (modes : List (List Char)) : Inv cap (start modes) := by
  refine ⟨?_, Nat.zero_le _, ?_⟩
  · simp only [start, held]
    symm
    rw [List.countP_eq_zero]
    intro c hc
    obtain ⟨m, -, rfl⟩ := List.mem_map.mp hc
    simp [Call.holding]
  · intro c hc
    obtain ⟨m, -, rfl⟩ := List.mem_map.mp hc
    simp [Call.logged]

theorem run_inv (cap : Nat) (s : Sys) (sched : List (Nat × Bool)) (hinv : Inv cap s) :
    Inv cap (run cap s sched) := by
  induction sched generalizing s with
  | nil => exact hinv
  | cons x xs ih =>
    obtain ⟨i, b⟩ := x
    exact ih _ (step_inv cap s i b hinv)

/-- The first move of a call is the send: with room in the channel it puts
one value in, and only then is the call past the send. -/
theorem send_step (cap : Nat) (s : Sys) (i : Nat) (b : Bool) (c : Call)
    (hc : s.calls[i]? = some c) (hpc : c.pc = .idle) (hfree : s.inUse < cap) :
    (step cap s i b).inUse = s.inUse + 1 ∧
      (step cap s i b).calls[i]? =
        some { c with pc := .entered, acts := c.acts ++ [.send] } := by
  have hs : stepCall cap s.inUse b c
      = some (s.inUse + 1, { c with pc := .entered, acts := c.acts ++ [.send] }) := by
    simp only [stepCall, hpc]
    rw [if_pos hfree]
  obtain ⟨e, g⟩ := step_of_stepCall cap s i b c _ _ hc hs
  exact ⟨by rw [e], g⟩

/-- With the channel full the send does not complete: the call stays where it
is and nothing changes. -/
theorem send_blocks (cap : Nat) (s : Sys) (i : Nat) (b : Bool) (c : Call)
    (hc : s.calls[i]? = some c) (hpc : c.pc = .idle) (hfull : cap ≤ s.inUse) :
    step cap s i b = s := by
  apply step_of_stepCall_none cap s i b c hc
  simp only [stepCall, hpc]
  rw [if_neg (by omega)]

/-- The decode is the move of a call that is past its send, and it leaves the
channel alone. -/
theorem decode_step (cap : Nat) (s : Sys) (i : Nat) (b : Bool) (c : Call)
    (hc : s.calls[i]? = some c) (hpc : c.pc = .entered) :
    (step cap s i b).inUse = s.inUse ∧
      (step cap s i b).calls[i]? =
        some { c with pc := if b then .decoded else .failed,
                      acts := c.acts ++ [.decode b] } := by
  have hs : stepCall cap s.inUse b c
      = some (s.inUse, { c with pc := if b then .decoded else .failed,
                                acts := c.acts ++ [.decode b] }) := by
    simp only [stepCall, hpc]
  obtain ⟨e, g⟩ := step_of_stepCall cap s i b c _ _ hc hs
  exact ⟨by rw [e], g⟩

/-- A call past its decode can always take its way out, whichever it is, and
that takes one value out of the channel. -/
theorem release_step (cap : Nat) (s : Sys) (i : Nat) (b : Bool) (c : Call) (hinv : Inv cap s)
    (hc : s.calls[i]? = some c) (hpc : c.pc = .decoded ∨ c.pc = .failed) :
    (step cap s i b).inUse + 1 = s.inUse ∧
      (step cap s i b).calls[i]? =
        some { c with
          pc := if c.pc = .decoded ∧ (c.mode = ['z'] ∨ c.mode = ['x']) then .returned
                else .panicked,
          acts := c.acts ++ [.recv] } := by
  have hhold : c.holding = true := by
    rcases hpc with h | h <;> simp [Call.holding, h]
  have hpos := held_pos_of_holding s i c hc hhold
  have h1 := hinv.1
  have hs : stepCall cap s.inUse b c = some (s.inUse - 1,
      { c with
        pc := if c.pc = .decoded ∧ (c.mode = ['z'] ∨ c.mode = ['x']) then .returned
              else .panicked,
        acts := c.acts ++ [.recv] }) := by
    rcases hpc with h | h
    · simp only [stepCall, h]
      rw [if_pos (by omega)]
      simp
    · simp only [stepCall, h]
      rw [if_pos (by omega)]
      simp
  obtain ⟨e, g⟩ := step_of_stepCall cap s i b c _ _ hc hs
  refine ⟨?_, g⟩
  rw [e]
  show s.inUse - 1 + 1 = s.inUse
  omega

/-- A call that has ended makes no further move. -/
theorem ended_step (cap : Nat) (s : Sys) (i : Nat) (b : Bool) (c : Call)
    (hc : s.calls[i]? = some c) (hpc : c.ended = true) : step cap s i b = s := by
  apply step_of_stepCall_none cap s i b c hc
  simp only [Call.ended, Bool.or_eq_true, decide_eq_true_eq] at hpc
  rcases hpc with h | h <;> simp only [stepCall, h]

/-- A call that runs from its send to its end with no other call moving
sends once, decodes, receives once, and leaves the channel as it found it. -/
theorem solo_call (cap : Nat) (s : Sys) (i : Nat) (b : Bool) (c : Call) (hinv : Inv cap s)
    (hc : s.calls[i]? = some c) (hpc : c.pc = .idle) (hfree : s.inUse < cap) :
    (run cap s [(i, b), (i, b), (i, b)]).inUse = s.inUse ∧
      held (run cap s [(i, b), (i, b), (i, b)]) = held s ∧
      (run cap s [(i, b), (i, b), (i, b)]).calls[i]? =
        some ⟨if b = true ∧ (c.mode = ['z'] ∨ c.mode = ['x']) then .returned else .panicked,
          c.mode, [.send, .decode b, .recv]⟩ := by
  have hacts : c.acts = [] := by
    have := hinv.2.2 c (List.getElem?_mem hc)
    simpa only [Call.logged, hpc] using this
  obtain ⟨e1, g1⟩ := send_step cap s i b c hc hpc hfree
  have inv1 := step_inv cap s i b hinv
  obtain ⟨e2, g2⟩ := decode_step cap (step cap s i b) i b _ g1 rfl
  have inv2 := step_inv cap _ i b inv1
  obtain ⟨e3, g3⟩ := release_step cap (step cap (step cap s i b) i b) i b _ inv2 g2
    (by cases b <;> simp)
  have inv3 := step_inv cap _ i b inv2
  simp only [run]
  refine ⟨by omega, ?_, ?_⟩
  · rw [← inv3.1, ← hinv.1]
    omega
  · rw [g3, hacts]
    cases b <;> simp

/-- The sequential `processImage` is the solo run of the step model: it
blocks exactly when the send has no room, and otherwise ends as the three
moves end, with the channel as it was. -/
theorem solo_matches_processImage (env : Env) (input : Bytes) (mode : List Char)
    (width height : Int) (w : World) :
    (¬ w.inUse < capacity env.cfg →
        (processImage env input mode width height w).1 = .blocked ∧
          step (capacity env.cfg) ⟨w.inUse, [⟨.idle, mode, []⟩]⟩ 0 (decodes env input)
            = ⟨w.inUse, [⟨.idle, mode, []⟩]⟩) ∧
      (w.inUse < capacity env.cfg →
        (processImage env input mode width height w).2.1.inUse = w.inUse ∧
          (run (capacity env.cfg) ⟨w.inUse, [⟨.idle, mode, []⟩]⟩
              [(0, decodes env input), (0, decodes env input), (0, decodes env input)]).inUse
            = w.inUse ∧
          (((run (capacity env.cfg) ⟨w.inUse, [⟨.idle, mode, []⟩]⟩
                [(0, decodes env input), (0, decodes env input),
                  (0, decodes env input)]).calls[0]?.map Call.pc = some .returned) ↔
            ∃ buf, (processImage env input mode width height w).1 = .ok buf) ∧
          (((run (capacity env.cfg) ⟨w.inUse, [⟨.idle, mode, []⟩]⟩
                [(0, decodes env input), (0, decodes env input),
                  (0, decodes env input)]).calls[0]?.map Call.pc = some .panicked) ↔
            (processImage env input mode width height w).1 = .panic)) := by
  constructor
  · intro hfull
    exact ⟨by simp [processImage, hfull], by simp [step, stepCall, hfull]⟩
  · intro hslot
    cases hdec : env.codec.decode input with
    | error e =>
      simp [processImage, hslot, hdec, decodes, run, step, stepCall]
    | ok img =>
      by_cases hz : mode = ['z']
      · simp [processImage, hslot, hdec, decodes, run, step, stepCall, hz]
      · by_cases hx : mode = ['x']
        · simp [processImage, hslot, hdec, decodes, run, step, stepCall, hx]
        · simp [processImage, hslot, hdec, decodes, run, step, stepCall, hz, hx]

/-- C8: in every interleaving of calls of `processImage` over a channel of
capacity `ProcessPar`: the calls that hold a slot are never more than the
capacity and are exactly the values in the channel; the moves of every call
are, in this order, one send, the decode, one receive, so a call decodes only
after its one send and has received once when it has ended, by return, by the
panic of a failed decode or by the panic of the encoder on an unknown mode;
the send of a call takes one slot when there is room and does not complete
when the channel is full; the decode leaves the channel alone; the way out of
a call past its decode is always open and gives one slot back; an ended call
moves no more; and a call run from start to end on its own leaves the number
of held slots as it was before the call began. -/
theorem limiter_bounds (cfg : ImageConfig) (modes : List (List Char))
    (sched : List (Nat × Bool)) :
    let cap := capacity cfg
    let s := run cap (start modes) sched
    held s ≤ cap ∧ s.inUse = held s ∧
      (∀ c ∈ s.calls,
        (c.pc = .idle → c.acts = []) ∧
        (c.pc = .entered → c.acts = [.send]) ∧
        (c.pc = .decoded → c.acts = [.send, .decode true]) ∧
        (c.pc = .failed → c.acts = [.send, .decode false]) ∧
        (c.pc = .returned →
          c.acts = [.send, .decode true, .recv] ∧ (c.mode = ['z'] ∨ c.mode = ['x'])) ∧
        (c.pc = .panicked →
          c.acts = [.send, .decode false, .recv] ∨
            (c.acts = [.send, .decode true, .recv] ∧ ¬ (c.mode = ['z'] ∨ c.mode = ['x'])))) ∧
      (∀ i c b, s.calls[i]? = some c →
        (step cap s i b).inUse = held (step cap s i b) ∧
        (c.pc = .idle → s.inUse < cap →
          (step cap s i b).inUse = s.inUse + 1 ∧
            (step cap s i b).calls[i]? = some ⟨.entered, c.mode, [.send]⟩) ∧
        (c.pc = .idle → cap ≤ s.inUse → step cap s i b = s) ∧
        (c.pc = .entered →
          (step cap s i b).inUse = s.inUse ∧
            (step cap s i b).calls[i]? =
              some ⟨if b then .decoded else .failed, c.mode, [.send, .decode b]⟩) ∧
        (c.pc = .decoded ∨ c.pc = .failed →
          (step cap s i b).inUse + 1 = s.inUse ∧
            (step cap s i b).calls[i]? =
              some ⟨if c.pc = .decoded ∧ (c.mode = ['z'] ∨ c.mode = ['x']) then .returned
                    else .panicked, c.mode, c.acts ++ [.recv]⟩) ∧
        (c.ended = true → step cap s i b = s) ∧
        (c.pc = .idle → s.inUse < cap →
          (run cap s [(i, b), (i, b), (i, b)]).inUse = s.inUse ∧
            held (run cap s [(i, b), (i, b), (i, b)]) = held s ∧
            (run cap s [(i, b), (i, b), (i, b)]).calls[i]? =
              some ⟨if b = true ∧ (c.mode = ['z'] ∨ c.mode = ['x']) then .returned
                    else .panicked, c.mode, [.send, .decode b, .recv]⟩)) := by
  intro cap s
  have hinv : Inv cap s := run_inv _ _ _ (start_inv _ _)
  refine ⟨by rw [← hinv.1]; exact hinv.2.1, hinv.1, ?_, ?_⟩
  · intro c hc
    have hlog := hinv.2.2 c hc
    obtain ⟨pc, mode, acts⟩ := c
    cases pc <;> simpa [Call.logged] using hlog
  · intro i c b hc
    have hlog := hinv.2.2 c (List.getElem?_mem hc)
    refine ⟨(step_inv cap s i b hinv).1, ?_, ?_, ?_, ?_, ?_, ?_⟩
    · intro hpc hfree
      have := send_step cap s i b c hc hpc hfree
      simp only [Call.logged, hpc] at hlog
      simpa [hlog] using this
    · intro hpc hfull
      exact send_blocks cap s i b c hc hpc hfull
    · intro hpc
      have := decode_step cap s i b c hc hpc
      simp only [Call.logged, hpc] at hlog
      simpa [hlog] using this
    · intro hpc
      exact release_step cap s i b c hinv hc hpc
    · intro hpc
      exact ended_step cap s i b c hc hpc
    · intro hpc hfree
      exact solo_call cap s i b c hinv hc hpc hfree

/-- Three calls over two slots: the third waits while two hold a slot, and a
schedule lets all three end with the channel empty, one by return, one by the
panic of a failed decode, one by the panic of the encoder on the mode `|`. -/
theorem three_calls_two_slots :
    held (run (capacity sampleCfg) (start [['z'], ['x'], ['|']])
        [(0, true), (1, true), (2, true)]) = 2 ∧
      run (capacity sampleCfg) (start [['z'], ['x'], ['|']])
          [(0, true), (1, false), (2, true), (0, true), (1, false), (0, true), (2, true),
            (1, false), (2, true), (2, true)]
        = ⟨0, [⟨.returned, ['z'], [.send, .decode true, .recv]⟩,
            ⟨.panicked, ['x'], [.send, .decode false, .recv]⟩,
            ⟨.panicked, ['|'], [.send, .decode true, .recv]⟩]⟩ := by
  decide

end Caaas
